import Mathlib

/-! ### Forest-level views of the methods -/

set_option linter.unusedSectionVars false

namespace MyGeoDb

variable {K : Type} [DecidableEq K]

/-! ## Data model and operations, embedded from src/graph.py -/

/-- Read `forest[i]` (Python `self.forest[node]`); in-range everywhere it is
used, so the `getD` default `i` is never observable. -/
def fget (f : List Nat) (i : Nat) : Nat := f.getD i i

/-- Write `forest[i] = v` (Python `self.forest[node] = r`). -/
def fset (f : List Nat) (i v : Nat) : List Nat := f.set i v

/-- Index `i` is a root of the forest: `forest[i] == i`. -/
def isRoot (f : List Nat) (i : Nat) : Prop := fget f i = i

instance (f : List Nat) (i : Nat) : Decidable (isRoot f i) := by
  unfold isRoot; infer_instance

/-- Follow parent links `k` times. -/
def iterF : Nat → List Nat → Nat → Nat
  | 0, _, i => i
  | k + 1, f, i => iterF k f (fget f i)

/-- Follow parent links until a root is found, with fuel.  This is the pure
root lookup that `connectedComponentIdentifier` computes (ignoring its
compression side effect). -/
def rootF : Nat → List Nat → Nat → Nat
  | 0, _, i => i
  | fuel + 1, f, i => if fget f i = i then i else rootF fuel f (fget f i)

/-- Root lookup with the fuel `forest.length`, which suffices on every state
satisfying the forest invariant. -/
def rootW (f : List Nat) (i : Nat) : Nat := rootF f.length f i

/-- Function `connectedComponentIdentifier` (src/graph.py lines 43-55), forest part.
Python:
    if self.forest[node] != node:
        r = self.connectedComponentIdentifier(self.forest[node])
        self.forest[node] = r
        return r
    else:
        return node
The recursion receives the *unmodified* forest (the parent is read before the
recursive call), the returned forest carries the compression writes. -/
def ccIdF : Nat → List Nat → Nat → Nat × List Nat
  | 0, f, node => (node, f)
  | fuel + 1, f, node =>
    if fget f node ≠ node then
      let p := ccIdF fuel f (fget f node)
      (p.1, fset p.2 node p.1)
    else (node, f)

/-- Every parent pointer of a live index is a live index. -/
def InRange (f : List Nat) : Prop := ∀ i < f.length, fget f i < f.length

/-- Every live index reaches a root within `f.length` steps: this is the
acyclicity of the parent forest, in bounded (hence decidable) form. -/
def Rooted (f : List Nat) : Prop := ∀ i < f.length, isRoot f (rootW f i)

/-- The forest invariant: in-range parent links and acyclicity. -/
def Inv (f : List Nat) : Prop := InRange f ∧ Rooted f

instance (f : List Nat) : Decidable (InRange f) := by
  unfold InRange; infer_instance

instance (f : List Nat) : Decidable (Rooted f) := by
  unfold Rooted; infer_instance

instance (f : List Nat) : Decidable (Inv f) := by
  unfold Inv; infer_instance

/-- The class-level dictionaries `hash2seq` and `seq2hash`, modelled as
partial maps. -/
structure ClassState (K : Type) where
  hash2seq : K → Option Nat
  seq2hash : Nat → Option K

/-- The pristine class state: both dictionaries empty (`{}` at class
creation, before any instance is constructed). -/
def ClassState.fresh (K : Type) : ClassState K :=
  { hash2seq := fun _ => none, seq2hash := fun _ => none }

/-- Per-instance state of `connectedComponentsLabeler`. -/
structure connectedComponentsLabeler (K : Type) where
  hashes : List K
  numberOfNodes : Nat
  forest : List Nat
  edges : List (K × K)

/-- Method `connectedComponentIdentifier`: reads and writes only
`self.forest`. -/
def connectedComponentIdentifier (L : connectedComponentsLabeler K) (node : Nat) :
    Nat × connectedComponentsLabeler K :=
  let r := ccIdF L.forest.length L.forest node
  (r.1, { L with forest := r.2 })

/-- Method `link` (src/graph.py lines 57-74):
    ccA = self.connectedComponentIdentifier(nodeA)
    ccB = self.connectedComponentIdentifier(nodeB)
    if ccA != ccB: self.forest[ccA] = ccB
The second lookup observes the compression writes of the first. -/
def link (L : connectedComponentsLabeler K) (nodeA nodeB : Nat) :
    connectedComponentsLabeler K :=
  let ccA := connectedComponentIdentifier L nodeA
  let ccB := connectedComponentIdentifier ccA.2 nodeB
  if ccA.1 ≠ ccB.1 then
    { ccB.2 with forest := fset ccB.2.forest ccA.1 ccB.1 }
  else ccB.2

/-- Method `simplifyForest` (src/graph.py lines 76-85):
    for i in range(0, len(self.forest)):
        self.forest[i] = self.connectedComponentIdentifier(i)
-/
def simplifyForest (L : connectedComponentsLabeler K) : connectedComponentsLabeler K :=
  (List.range L.forest.length).foldl
    (fun L i =>
      let r := connectedComponentIdentifier L i
      { r.2 with forest := fset r.2.forest i r.1 })
    L

/-- Method `getConnectedCompontents` (src/graph.py lines 87-91, sic): simplifies the
forest in place, then returns `pd.DataFrame({'id': self.hashes, 'cc':
self.forest})`, modelled as the mutated instance together with the list of
`(id, cc)` rows. -/
def getConnectedCompontents (L : connectedComponentsLabeler K) :
    connectedComponentsLabeler K × List (K × Nat) :=
  let L2 := simplifyForest L
  (L2, L2.hashes.zip L2.forest)

/-- Line 30, `self.hashes = [h for h in set(self.edges["a"]).union(self.edges["b"])]`
(line 30).  Python's set iteration order is unspecified; the model takes the
deduplicated concatenation of the two columns, one concrete enumeration of
that set. -/
def hashesOf (edges : List (K × K)) : List K :=
  (edges.map Prod.fst ++ edges.map Prod.snd).dedup

/-- The registration loop of `__init__` (lines 32-34):
    for (hash, seq) in zip(self.hashes, range(len(self.hashes))):
        self.hash2seq[hash] = seq
        self.seq2hash[seq] = hash
mutating the *class-level* dictionaries in place. -/
def registerKeys (cs : ClassState K) : List K → Nat → ClassState K
  | [], _ => cs
  | h :: t, seq =>
      registerKeys
        { hash2seq := Function.update cs.hash2seq h (some seq),
          seq2hash := Function.update cs.seq2hash seq (some h) }
        t (seq + 1)

/-- Constructor `__init__` (src/graph.py lines 22-41): stores the edges, enumerates the
distinct keys, registers them in the shared dictionaries, initialises
`forest = [0, 1, ..., n-1]`, then links the endpoint indices of every edge
row.  Returns the new instance together with the mutated class state. -/
def makeLabeler (cs : ClassState K) (edges : List (K × K)) :
    connectedComponentsLabeler K × ClassState K :=
  let hashes := hashesOf edges
  let cs2 := registerKeys cs hashes 0
  let L0 : connectedComponentsLabeler K :=
    { hashes := hashes, numberOfNodes := hashes.length,
      forest := List.range hashes.length, edges := edges }
  (edges.foldl
    (fun L row => link L ((cs2.hash2seq row.1).getD 0) ((cs2.hash2seq row.2).getD 0))
    L0, cs2)

/-- Transitive connection of two keys by the ingested edges: the equivalence
closure of the edge relation. -/
inductive Joined (edges : List (K × K)) : K → K → Prop
  | edge {a b : K} : (a, b) ∈ edges → Joined edges a b
  | refl (a : K) : Joined edges a a
  | symm {a b : K} : Joined edges a b → Joined edges b a
  | trans {a b c : K} : Joined edges a b → Joined edges b c → Joined edges a c

/-- Number of distinct components of a forest: the number of distinct roots
reached from the live indices (what `COUNT(DISTINCT cc)` measures on the
output). -/
def distinctComponents (f : List Nat) : Nat :=
  ((Finset.range f.length).image (rootW f)).card

/-- The action of `link` on the forest alone. -/
def linkF (f : List Nat) (a b : Nat) : List Nat :=
  let r1 := ccIdF f.length f a
  let r2 := ccIdF r1.2.length r1.2 b
  if r1.1 ≠ r2.1 then fset r2.2 r1.1 r2.1 else r2.2

/-- One iteration of the `simplifyForest` loop on the forest alone. -/
def simplifyStep (f : List Nat) (i : Nat) : List Nat :=
  let r := ccIdF f.length f i
  fset r.2 i r.1

/-- The action of `simplifyForest` on the forest alone. -/
def simplifyF (f : List Nat) : List Nat :=
  (List.range f.length).foldl simplifyStep f

/-! ### The recursion depth of `connectedComponentIdentifier`

`connectedComponentIdentifier` is written recursively in the source (lines
50-53): each non-root node costs one more stack frame before any compression
happens.  `ccDepth` counts those frames (with fuel, evaluated below only with
ample fuel). -/
def ccDepth : Nat → List Nat → Nat → Nat
  | 0, _, _ => 0
  | fuel + 1, f, node =>
    if fget f node ≠ node then ccDepth fuel f (fget f node) + 1 else 1

/-- The edge list `(1,2), (2,3), ..., (M, M+1)`. -/
def chainEdges (M : Nat) : List (Nat × Nat) :=
  (List.range M).map (fun k => (k + 1, k + 2))

/-! ## Properties -/

/-! ### Basic forest lemmas -/
theorem length_fset (f : List Nat) (i v : Nat) : (fset f i v).length = f.length :=
  List.length_set ..

theorem fget_fset (f : List Nat) (i v j : Nat) :
    fget (fset f i v) j = if j = i ∧ i < f.length then v else fget f j := by
  unfold fget fset
  rcases Decidable.em (j = i) with rfl | hji
  · rcases Decidable.em (j < f.length) with h | h
    · simp [List.getD_eq_getElem?_getD, List.getElem?_set, h]
    · have h1 : f.length ≤ j := Nat.le_of_not_lt h
      simp [List.getD_eq_getElem?_getD, List.getElem?_set, h,
        List.getElem?_eq_none (l := f.set j v) (by simpa using h1),
        List.getElem?_eq_none (l := f) h1]
  · have hij : ¬ i = j := fun h => hji h.symm
    simp [List.getD_eq_getElem?_getD, List.getElem?_set, hij, hji]

theorem fget_fset_self (f : List Nat) (i v : Nat) (h : i < f.length) :
    fget (fset f i v) i = v := by
  rw [fget_fset]; simp [h]

theorem fget_fset_other (f : List Nat) (i v j : Nat) (h : j ≠ i) :
    fget (fset f i v) j = fget f j := by
  rw [fget_fset]; simp [h]

theorem fget_lt_of_inRange {f : List Nat} (h : InRange f) {i : Nat} (hi : i < f.length) :
    fget f i < f.length := h i hi

theorem iterF_lt {f : List Nat} (h : InRange f) {i : Nat} (hi : i < f.length) :
    ∀ k, iterF k f i < f.length := by
  intro k
  induction k generalizing i with
  | zero => exact hi
  | succ k ih => exact ih (h i hi)

theorem iterF_add (a b : Nat) (f : List Nat) (i : Nat) :
    iterF (a + b) f i = iterF b f (iterF a f i) := by
  induction a generalizing i with
  | zero => simp [iterF]
  | succ a ih =>
    have : a + 1 + b = (a + b) + 1 := by omega
    rw [this, iterF, iterF, ih]

theorem iterF_root {f : List Nat} {r : Nat} (h : isRoot f r) : ∀ k, iterF k f r = r := by
  intro k
  induction k with
  | zero => rfl
  | succ k ih => rw [iterF, h, ih]

/-- If the chain from `i` hits a root after `k` steps, `rootF` with fuel
`≥ k` returns exactly that value. -/
theorem rootF_of_iter_root {f : List Nat} :
    ∀ {k i fuel}, isRoot f (iterF k f i) → k ≤ fuel → rootF fuel f i = iterF k f i := by
  intro k
  induction k with
  | zero =>
    intro i fuel h _
    cases fuel with
    | zero => rfl
    | succ fuel =>
      have h' : fget f i = i := h
      rw [rootF, if_pos h']; rfl
  | succ k ih =>
    intro i fuel h hle
    cases fuel with
    | zero => omega
    | succ fuel =>
      rcases Decidable.em (fget f i = i) with hr | hr
      · rw [rootF, if_pos hr]
        rw [iterF, hr, iterF_root hr]
      · rw [rootF, if_neg hr]
        exact ih (by rwa [iterF] at h) (by omega)

/-- Lookup `rootF` always lands on the chain from `i`. -/
theorem rootF_as_iter (fuel : Nat) (f : List Nat) (i : Nat) :
    ∃ k ≤ fuel, rootF fuel f i = iterF k f i := by
  induction fuel generalizing i with
  | zero => exact ⟨0, Nat.le_refl 0, rfl⟩
  | succ fuel ih =>
    rcases Decidable.em (fget f i = i) with hr | hr
    · exact ⟨0, Nat.zero_le _, by rw [rootF, if_pos hr]; rfl⟩
    · obtain ⟨k, hk, he⟩ := ih (fget f i)
      exact ⟨k + 1, by omega, by rw [rootF, if_neg hr, he, iterF]⟩

/-- Pigeonhole: a chain that reaches a root at all reaches it within
`f.length` steps (the visited nodes up to the first root are pairwise
distinct live indices). -/
theorem reach_small {f : List Nat} (hr : InRange f) {i : Nat} (hi : i < f.length)
    (h : ∃ k, isRoot f (iterF k f i)) :
    ∃ k < f.length, isRoot f (iterF k f i) := by
  classical
  let P : Nat → Prop := fun k => isRoot f (iterF k f i)
  have hP : ∃ k, P k := h
  let k0 := Nat.find hP
  have hk0 : P k0 := Nat.find_spec hP
  have hmin : ∀ m < k0, ¬ P m := fun m hm => Nat.find_min hP hm
  refine ⟨k0, ?_, hk0⟩
  -- the nodes iterF 0 .. iterF k0 are pairwise distinct
  have hinj : Set.InjOn (fun k => iterF k f i) (Finset.range (k0 + 1)) := by
    intro a ha b hb hab
    have hab' : iterF a f i = iterF b f i := hab
    simp only [Finset.coe_range, Set.mem_Iio] at ha hb
    by_contra hne
    -- wlog a < b
    rcases Nat.lt_or_ge a b with hlt | hge
    · have : isRoot f (iterF (a + (k0 - b)) f i) := by
        have he : iterF (a + (k0 - b)) f i = iterF (b + (k0 - b)) f i := by
          rw [iterF_add, iterF_add, hab']
        rw [he]
        have he2 : b + (k0 - b) = k0 := by omega
        rw [he2]; exact hk0
      exact hmin (a + (k0 - b)) (by omega) this
    · have hlt : b < a := by omega
      have : isRoot f (iterF (b + (k0 - a)) f i) := by
        have he : iterF (b + (k0 - a)) f i = iterF (a + (k0 - a)) f i := by
          rw [iterF_add, iterF_add, hab']
        rw [he]
        have he2 : a + (k0 - a) = k0 := by omega
        rw [he2]; exact hk0
      exact hmin (b + (k0 - a)) (by omega) this
  have hmaps : ∀ k ∈ Finset.range (k0 + 1), iterF k f i ∈ Finset.range f.length := by
    intro k _
    simp only [Finset.mem_range]
    exact iterF_lt hr hi k
  have hcard := Finset.card_le_card_of_injOn (fun k => iterF k f i) hmaps hinj
  simp only [Finset.card_range] at hcard
  omega

/-- A node that reaches some root reaches it as `rootW`, and `rootW` is that
unique root. -/
theorem rootW_eq_of_reach {f : List Nat} (hr : InRange f) {i r : Nat} (hi : i < f.length)
    (hreach : ∃ k, iterF k f i = r ∧ isRoot f r) :
    rootW f i = r ∧ isRoot f (rootW f i) := by
  obtain ⟨k, hk, hroot⟩ := hreach
  obtain ⟨k0, hk0lt, hk0⟩ := reach_small hr hi ⟨k, by rw [hk]; exact hroot⟩
  have h1 : rootF f.length f i = iterF k0 f i :=
    rootF_of_iter_root hk0 (Nat.le_of_lt hk0lt)
  -- iterF k0 and iterF k agree: past a root the chain is constant
  have h2 : iterF k0 f i = r := by
    rcases Nat.le_total k0 k with hle | hle
    · have : iterF k f i = iterF (k0 + (k - k0)) f i := by congr 1; omega
      rw [this, iterF_add, iterF_root hk0] at hk
      exact hk
    · have : iterF k0 f i = iterF (k + (k0 - k)) f i := by congr 1; omega
      rw [this, iterF_add, hk, iterF_root hroot]
  rw [rootW, h1, h2]
  exact ⟨rfl, hroot⟩

theorem rootW_reach {f : List Nat} (hinv : Inv f) {i : Nat} (hi : i < f.length) :
    ∃ k, iterF k f i = rootW f i ∧ isRoot f (rootW f i) := by
  obtain ⟨k, _, he⟩ := rootF_as_iter f.length f i
  exact ⟨k, by rw [rootW, he], hinv.2 i hi⟩

theorem rootW_lt {f : List Nat} (hinv : Inv f) {i : Nat} (hi : i < f.length) :
    rootW f i < f.length := by
  obtain ⟨k, hk, _⟩ := rootW_reach hinv hi
  rw [← hk]; exact iterF_lt hinv.1 hi k

theorem rootW_of_isRoot {f : List Nat} (hr : InRange f) {i : Nat} (hi : i < f.length)
    (h : isRoot f i) : rootW f i = i :=
  (rootW_eq_of_reach hr hi ⟨0, rfl, h⟩).1

theorem rootW_fget {f : List Nat} (hinv : Inv f) {i : Nat} (hi : i < f.length) :
    rootW f (fget f i) = rootW f i := by
  rcases Decidable.em (fget f i = i) with hr | hr
  · rw [hr]
  · obtain ⟨k, hk, hroot⟩ := rootW_reach hinv hi
    cases k with
    | zero =>
      simp only [iterF] at hk
      rw [← hk] at hroot
      exact absurd hroot hr
    | succ k =>
      rw [iterF] at hk
      exact (rootW_eq_of_reach hinv.1 (hinv.1 i hi) ⟨k, hk, hroot⟩).1

theorem rootW_idem {f : List Nat} (hinv : Inv f) {i : Nat} (hi : i < f.length) :
    rootW f (rootW f i) = rootW f i :=
  rootW_of_isRoot hinv.1 (rootW_lt hinv hi) (hinv.2 i hi)

/-! ### Path compression: relinking a node to its own root -/
theorem isRoot_fset_root {f : List Nat} (hinv : Inv f) {i : Nat} (hi : i < f.length) :
    ∀ x, isRoot f x → isRoot (fset f i (rootW f i)) x := by
  intro x hx
  rcases Decidable.em (x = i) with rfl | hxi
  · have : rootW f x = x := rootW_of_isRoot hinv.1 hi hx
    unfold isRoot
    rw [fget_fset_self _ _ _ hi, this]
  · unfold isRoot
    rw [fget_fset_other _ _ _ _ hxi]
    exact hx

theorem inRange_fset {f : List Nat} (hr : InRange f) {v : Nat} (hv : v < f.length) (i : Nat) :
    InRange (fset f i v) := by
  intro j hj
  rw [length_fset] at hj ⊢
  rw [fget_fset]
  rcases Decidable.em (j = i ∧ i < f.length) with h | h
  · simp only [h, if_true]; exact hv
  · simp only [h, if_false]; exact hr j hj

theorem fset_root_spec {f : List Nat} (hinv : Inv f) {i : Nat} (hi : i < f.length) :
    (∀ j < f.length, rootW (fset f i (rootW f i)) j = rootW f j) ∧
    Inv (fset f i (rootW f i)) := by
  set r := rootW f i with hr
  set f2 := fset f i r with hf2
  have hrlt : r < f.length := rootW_lt hinv hi
  have hroot : isRoot f r := hinv.2 i hi
  have hlen : f2.length = f.length := length_fset ..
  have hrange2 : InRange f2 := inRange_fset hinv.1 hrlt i
  have hpres : ∀ x, isRoot f x → isRoot f2 x := isRoot_fset_root hinv hi
  -- every node still reaches its old root in f2
  have hreach : ∀ k j, j < f.length → iterF k f j = rootW f j →
      ∃ m, iterF m f2 j = rootW f j := by
    intro k
    induction k using Nat.strong_induction_on with
    | _ k ih =>
      intro j hj hk
      rcases Decidable.em (fget f j = j) with hrj | hrj
      · exact ⟨0, (rootW_of_isRoot hinv.1 hj hrj).symm⟩
      · cases k with
        | zero =>
          simp only [iterF] at hk
          exact absurd (hk ▸ hinv.2 j hj) hrj
        | succ k =>
          rw [iterF] at hk
          have hstep : rootW f (fget f j) = rootW f j := rootW_fget hinv hj
          rcases Decidable.em (j = i) with rfl | hji
          · -- fget f2 j = r = rootW f j directly
            refine ⟨1, ?_⟩
            show iterF 0 f2 (fget f2 j) = rootW f j
            rw [fget_fset_self _ _ _ hi]
            exact hr
          · obtain ⟨m, hm⟩ := ih k (Nat.lt_succ_self k) (fget f j)
              (hinv.1 j hj) (by rw [hstep]; exact hk)
            refine ⟨m + 1, ?_⟩
            show iterF m f2 (fget f2 j) = rootW f j
            rw [hf2, fget_fset_other _ _ _ _ hji, hm, hstep]
  have main : ∀ j < f.length, rootW f2 j = rootW f j ∧ isRoot f2 (rootW f2 j) := by
    intro j hj
    obtain ⟨k, hk, _⟩ := rootW_reach hinv hj
    obtain ⟨m, hm⟩ := hreach k j hj hk
    have hrootj : isRoot f2 (rootW f j) := hpres _ (hinv.2 j hj)
    have := rootW_eq_of_reach hrange2 (by rw [hlen]; exact hj) ⟨m, hm, hrootj⟩
    exact ⟨this.1, this.2⟩
  refine ⟨fun j hj => (main j hj).1, hrange2, ?_⟩
  intro j hj
  rw [hlen] at hj
  exact (main j hj).2

/-! ### Union: attaching one root beneath another -/
theorem fset_union_spec {f : List Nat} (hinv : Inv f) {ra rb : Nat}
    (hra : ra < f.length) (hrb : rb < f.length)
    (hroota : isRoot f ra) (hrootb : isRoot f rb) (hne : ra ≠ rb) :
    (∀ j < f.length,
      rootW (fset f ra rb) j = if rootW f j = ra then rb else rootW f j) ∧
    Inv (fset f ra rb) := by
  set f2 := fset f ra rb with hf2
  have hlen : f2.length = f.length := length_fset ..
  have hrange2 : InRange f2 := inRange_fset hinv.1 hrb ra
  have hrootb2 : isRoot f2 rb := by
    unfold isRoot
    rw [hf2, fget_fset_other _ _ _ _ (Ne.symm hne)]
    exact hrootb
  have htgt_root : ∀ j, j < f.length → isRoot f2 (if rootW f j = ra then rb else rootW f j) := by
    intro j hj
    rcases Decidable.em (rootW f j = ra) with h | h
    · simp only [h, if_true]; exact hrootb2
    · simp only [h, if_false]
      unfold isRoot
      rw [hf2, fget_fset_other _ _ _ _ h]
      exact hinv.2 j hj
  have hreach : ∀ k j, j < f.length → iterF k f j = rootW f j →
      ∃ m, iterF m f2 j = (if rootW f j = ra then rb else rootW f j) := by
    intro k
    induction k using Nat.strong_induction_on with
    | _ k ih =>
      intro j hj hk
      rcases Decidable.em (fget f j = j) with hrj | hrj
      · have hrwj : rootW f j = j := rootW_of_isRoot hinv.1 hj hrj
        rcases Decidable.em (j = ra) with rfl | hja
        · refine ⟨1, ?_⟩
          show iterF 0 f2 (fget f2 j) = _
          rw [hf2, fget_fset_self _ _ _ hra]
          simp [iterF, hrwj]
        · exact ⟨0, by simp [iterF, hrwj, hja]⟩
      · cases k with
        | zero =>
          simp only [iterF] at hk
          exact absurd (hk ▸ hinv.2 j hj) hrj
        | succ k =>
          rw [iterF] at hk
          have hstep : rootW f (fget f j) = rootW f j := rootW_fget hinv hj
          have hja : j ≠ ra := by
            intro h
            rw [h] at hrj
            exact hrj hroota
          obtain ⟨m, hm⟩ := ih k (Nat.lt_succ_self k) (fget f j)
            (hinv.1 j hj) (by rw [hstep]; exact hk)
          refine ⟨m + 1, ?_⟩
          show iterF m f2 (fget f2 j) = _
          rw [hf2, fget_fset_other _ _ _ _ hja, hm, hstep]
  have main : ∀ j < f.length,
      rootW f2 j = (if rootW f j = ra then rb else rootW f j) ∧ isRoot f2 (rootW f2 j) := by
    intro j hj
    obtain ⟨k, hk, _⟩ := rootW_reach hinv hj
    obtain ⟨m, hm⟩ := hreach k j hj hk
    have := rootW_eq_of_reach hrange2 (by rw [hlen]; exact hj) ⟨m, hm, htgt_root j hj⟩
    exact ⟨this.1, this.2⟩
  refine ⟨fun j hj => (main j hj).1, hrange2, ?_⟩
  intro j hj
  rw [hlen] at hj
  exact (main j hj).2

/-! ### Specification of `connectedComponentIdentifier` (forest part) -/
theorem ccIdF_spec : ∀ (k : Nat) (f : List Nat) (node fuel : Nat),
    Inv f → node < f.length → isRoot f (iterF k f node) → k ≤ fuel →
    (ccIdF fuel f node).1 = rootW f node ∧
    (ccIdF fuel f node).2.length = f.length ∧
    Inv (ccIdF fuel f node).2 ∧
    (∀ j < f.length, rootW (ccIdF fuel f node).2 j = rootW f j) ∧
    (∀ x, isRoot f x → isRoot (ccIdF fuel f node).2 x) ∧
    (∀ j, fget (ccIdF fuel f node).2 j = fget f j ∨
          fget (ccIdF fuel f node).2 j = rootW f j) := by
  intro k
  induction k with
  | zero =>
    intro f node fuel hinv hn hk hfuel
    simp only [iterF] at hk
    have hroot : fget f node = node := hk
    have hid : ccIdF fuel f node = (node, f) := by
      cases fuel with
      | zero => rfl
      | succ fuel => simp [ccIdF, hroot]
    rw [hid]
    refine ⟨(rootW_of_isRoot hinv.1 hn hk).symm, rfl, hinv,
      fun j _ => rfl, fun x hx => hx, fun j => Or.inl rfl⟩
  | succ k ih =>
    intro f node fuel hinv hn hk hfuel
    rcases Decidable.em (fget f node = node) with hroot | hroot
    · have hid : ccIdF fuel f node = (node, f) := by
        cases fuel with
        | zero => rfl
        | succ fuel => simp [ccIdF, hroot]
      rw [hid]
      exact ⟨(rootW_of_isRoot hinv.1 hn hroot).symm, rfl, hinv,
        fun j _ => rfl, fun x hx => hx, fun j => Or.inl rfl⟩
    · cases fuel with
      | zero => omega
      | succ fuel =>
        have hkp : isRoot f (iterF k f (fget f node)) := by rwa [iterF] at hk
        have hplt : fget f node < f.length := hinv.1 node hn
        obtain ⟨h1, h2, h3, h4, h5, h6⟩ :=
          ih f (fget f node) fuel hinv hplt hkp (by omega)
        set p := ccIdF fuel f (fget f node) with hp
        have hunf : ccIdF (fuel + 1) f node = (p.1, fset p.2 node p.1) := by
          simp only [ccIdF, if_pos hroot]
        have hr1 : p.1 = rootW f node := by rw [h1, rootW_fget hinv hn]
        have hnode2 : node < p.2.length := by rw [h2]; exact hn
        have hr2 : p.1 = rootW p.2 node := by
          rw [h4 node hn, hr1]
        obtain ⟨c1, c2⟩ := fset_root_spec h3 hnode2
        rw [hunf]
        refine ⟨hr1, ?_, ?_, ?_, ?_, ?_⟩
        · simp only [length_fset]; exact h2
        · rw [hr2]; exact c2
        · intro j hj
          have hj2 : j < p.2.length := by rw [h2]; exact hj
          rw [hr2, c1 j hj2, h4 j hj]
        · intro x hx
          rw [hr2]
          exact isRoot_fset_root h3 hnode2 x (h5 x hx)
        · intro j
          rw [fget_fset]
          rcases Decidable.em (j = node ∧ node < p.2.length) with h | h
          · rw [if_pos h]
            right
            rw [hr1, h.1]
          · rw [if_neg h]
            exact h6 j

/-- With fuel `forest.length`, `connectedComponentIdentifier` satisfies the
specification on every state satisfying the invariant (the fuel is enough:
pigeonhole on the chain of distinct visited nodes). -/
theorem ccIdF_len_spec {f : List Nat} {node : Nat} (hinv : Inv f) (hn : node < f.length) :
    (ccIdF f.length f node).1 = rootW f node ∧
    (ccIdF f.length f node).2.length = f.length ∧
    Inv (ccIdF f.length f node).2 ∧
    (∀ j < f.length, rootW (ccIdF f.length f node).2 j = rootW f j) ∧
    (∀ x, isRoot f x → isRoot (ccIdF f.length f node).2 x) ∧
    (∀ j, fget (ccIdF f.length f node).2 j = fget f j ∨
          fget (ccIdF f.length f node).2 j = rootW f j) := by
  obtain ⟨k, hk, hroot⟩ := rootW_reach hinv hn
  obtain ⟨k0, hk0lt, hk0⟩ := reach_small hinv.1 hn ⟨k, by rw [hk]; exact hroot⟩
  exact ccIdF_spec k0 f node f.length hinv hn hk0 (Nat.le_of_lt hk0lt)

theorem link_eq (L : connectedComponentsLabeler K) (a b : Nat) :
    link L a b = { L with forest := linkF L.forest a b } := by
  simp only [link, linkF, connectedComponentIdentifier]
  split <;> rfl

theorem simplifyStep_eq (L : connectedComponentsLabeler K) (i : Nat) :
    (let r := connectedComponentIdentifier L i
     { r.2 with forest := fset r.2.forest i r.1 }) =
    { L with forest := simplifyStep L.forest i } := rfl

theorem foldl_simplifyStep (l : List Nat) :
    ∀ (L : connectedComponentsLabeler K),
    l.foldl (fun L i =>
      let r := connectedComponentIdentifier L i
      { r.2 with forest := fset r.2.forest i r.1 }) L =
    { L with forest := l.foldl simplifyStep L.forest } := by
  induction l with
  | nil => intro L; rfl
  | cons x t ih =>
    intro L
    rw [List.foldl_cons, List.foldl_cons, simplifyStep_eq, ih]

theorem simplifyForest_eq (L : connectedComponentsLabeler K) :
    simplifyForest L = { L with forest := simplifyF L.forest } := by
  rw [simplifyForest, foldl_simplifyStep, simplifyF]

/-! ### Specification of `link` -/
theorem linkF_spec {f : List Nat} (hinv : Inv f) {a b : Nat}
    (ha : a < f.length) (hb : b < f.length) :
    (linkF f a b).length = f.length ∧ Inv (linkF f a b) ∧
    (∀ j < f.length, rootW (linkF f a b) j =
       if rootW f a = rootW f b then rootW f j
       else if rootW f j = rootW f a then rootW f b else rootW f j) := by
  obtain ⟨a1, a2, a3, a4, a5, a6⟩ := ccIdF_len_spec hinv ha
  set f1 := (ccIdF f.length f a).2 with hf1
  have hb1 : b < f1.length := by rw [a2]; exact hb
  obtain ⟨b1, b2, b3, b4, b5, b6⟩ := ccIdF_len_spec a3 hb1
  set f2 := (ccIdF f1.length f1 b).2 with hf2
  have hlen2 : f2.length = f.length := by rw [b2, a2]
  have hra : (ccIdF f.length f a).1 = rootW f a := a1
  have hrb : (ccIdF f1.length f1 b).1 = rootW f b := by
    rw [b1, a4 b hb]
  have hroots2 : ∀ j, j < f.length → rootW f2 j = rootW f j := by
    intro j hj
    rw [b4 j (by rw [a2]; exact hj), a4 j hj]
  have hunf : linkF f a b =
      if (ccIdF f.length f a).1 ≠ (ccIdF f1.length f1 b).1 then
        fset f2 (ccIdF f.length f a).1 (ccIdF f1.length f1 b).1
      else f2 := rfl
  rcases Decidable.em (rootW f a = rootW f b) with heq | hne
  · have hcond : ¬ ((ccIdF f.length f a).1 ≠ (ccIdF f1.length f1 b).1) := by
      rw [hra, hrb]; exact fun h => h heq
    rw [hunf, if_neg hcond]
    refine ⟨hlen2, b3, ?_⟩
    intro j hj
    rw [if_pos heq, hroots2 j hj]
  · have hcond : (ccIdF f.length f a).1 ≠ (ccIdF f1.length f1 b).1 := by
      rw [hra, hrb]; exact hne
    rw [hunf, if_pos hcond, hra, hrb]
    have hra2 : rootW f a < f2.length := by
      rw [hlen2]; exact rootW_lt hinv ha
    have hrb2 : rootW f b < f2.length := by
      rw [hlen2]; exact rootW_lt hinv hb
    have hroota : isRoot f2 (rootW f a) :=
      b5 _ (a5 _ (hinv.2 a ha))
    have hrootb : isRoot f2 (rootW f b) := by
      have h1 : rootW f2 b = rootW f b := hroots2 b hb
      have := b3.2 b (by rw [hlen2]; exact hb)
      rwa [h1] at this
    obtain ⟨u1, u2⟩ := fset_union_spec b3 hra2 hrb2 hroota hrootb hne
    refine ⟨by rw [length_fset, hlen2], u2, ?_⟩
    intro j hj
    rw [if_neg hne]
    have := u1 j (by rw [hlen2]; exact hj)
    rw [this, hroots2 j hj]

/-! ### Lemmas on the connectivity closure -/
theorem joined_nil {α : Type} {i j : α} (h : Joined ([] : List (α × α)) i j) : i = j := by
  induction h with
  | edge h => exact absurd h (List.not_mem_nil _)
  | refl => rfl
  | symm _ ih => exact ih.symm
  | trans _ _ ih1 ih2 => exact ih1.trans ih2

theorem joined_mono {α : Type} {M M' : List (α × α)} (hsub : ∀ q ∈ M, q ∈ M')
    {i j : α} (h : Joined M i j) : Joined M' i j := by
  induction h with
  | edge h => exact Joined.edge (hsub _ h)
  | refl a => exact Joined.refl a
  | symm _ ih => exact ih.symm
  | trans _ _ ih1 ih2 => exact ih1.trans ih2

theorem joined_symm_iff {α : Type} {M : List (α × α)} {i j : α} :
    Joined M i j ↔ Joined M j i :=
  ⟨Joined.symm, Joined.symm⟩

/-- The effect of one extra edge on the connectivity closure. -/
theorem joined_append_single {α : Type} {M : List (α × α)} {p : α × α} {i j : α} :
    Joined (M ++ [p]) i j ↔
      Joined M i j ∨ (Joined M i p.1 ∧ Joined M p.2 j) ∨
      (Joined M i p.2 ∧ Joined M p.1 j) := by
  constructor
  · intro h
    induction h with
    | edge h =>
      rename_i a b
      rw [List.mem_append] at h
      rcases h with h | h
      · exact Or.inl (Joined.edge h)
      · simp only [List.mem_singleton] at h
        rw [Prod.ext_iff] at h
        obtain ⟨h1, h2⟩ := h
        simp only at h1 h2
        subst h1
        subst h2
        exact Or.inr (Or.inl ⟨Joined.refl _, Joined.refl _⟩)
    | refl a => exact Or.inl (Joined.refl a)
    | symm _ ih =>
      rcases ih with h | ⟨h1, h2⟩ | ⟨h1, h2⟩
      · exact Or.inl h.symm
      · exact Or.inr (Or.inr ⟨h2.symm, h1.symm⟩)
      · exact Or.inr (Or.inl ⟨h2.symm, h1.symm⟩)
    | trans _ _ ih1 ih2 =>
      rcases ih1 with h | ⟨h1, h2⟩ | ⟨h1, h2⟩ <;>
        rcases ih2 with g | ⟨g1, g2⟩ | ⟨g1, g2⟩
      · exact Or.inl (h.trans g)
      · exact Or.inr (Or.inl ⟨h.trans g1, g2⟩)
      · exact Or.inr (Or.inr ⟨h.trans g1, g2⟩)
      · exact Or.inr (Or.inl ⟨h1, h2.trans g⟩)
      · exact Or.inl (h1.trans ((h2.trans g1).symm.trans g2))
      · exact Or.inl (h1.trans g2)
      · exact Or.inr (Or.inr ⟨h1, h2.trans g⟩)
      · exact Or.inl (h1.trans g2)
      · exact Or.inl (h1.trans ((h2.trans g1).symm.trans g2))
  · have hM : ∀ q ∈ M, q ∈ M ++ [p] := fun q hq => List.mem_append_left _ hq
    have hedge : Joined (M ++ [p]) p.1 p.2 :=
      Joined.edge (by rw [List.mem_append]; right; simp)
    rintro (h | ⟨h1, h2⟩ | ⟨h1, h2⟩)
    · exact joined_mono hM h
    · exact ((joined_mono hM h1).trans hedge).trans (joined_mono hM h2)
    · exact ((joined_mono hM h1).trans hedge.symm).trans (joined_mono hM h2)

/-! ### The registration loop -/
theorem registerKeys_not_mem : ∀ (hs : List K) (cs : ClassState K) (s : Nat) (k : K),
    k ∉ hs → (registerKeys cs hs s).hash2seq k = cs.hash2seq k := by
  intro hs
  induction hs with
  | nil => intro cs s k _; rfl
  | cons h t ih =>
    intro cs s k hk
    have hne : k ≠ h := fun he => hk (he ▸ List.mem_cons_self h t)
    have hnt : k ∉ t := fun ht => hk (List.mem_cons_of_mem h ht)
    rw [registerKeys, ih _ _ _ hnt]
    exact Function.update_noteq hne _ _

theorem registerKeys_mem : ∀ (hs : List K) (cs : ClassState K) (s : Nat) (k : K),
    hs.Nodup → k ∈ hs → (registerKeys cs hs s).hash2seq k = some (s + hs.indexOf k) := by
  intro hs
  induction hs with
  | nil => intro cs s k _ hk; exact absurd hk (List.not_mem_nil k)
  | cons h t ih =>
    intro cs s k hnd hk
    rcases List.mem_cons.1 hk with rfl | hkt
    · have hnt : k ∉ t := (List.nodup_cons.1 hnd).1
      rw [registerKeys, registerKeys_not_mem t _ _ _ hnt]
      show Function.update cs.hash2seq k (some s) k = some (s + List.indexOf k (k :: t))
      simp [Function.update_same, List.indexOf_cons_self]
    · have hne : h ≠ k := by
        rintro rfl
        exact (List.nodup_cons.1 hnd).1 hkt
      rw [registerKeys, ih _ _ _ (List.nodup_cons.1 hnd).2 hkt]
      rw [List.indexOf_cons_ne _ hne]
      congr 1
      omega

theorem hashesOf_nodup (edges : List (K × K)) : (hashesOf edges).Nodup :=
  List.nodup_dedup _

/-- The index a registered key is mapped to: its position in `hashes`,
independently of the prior contents of the shared dictionary. -/
theorem registered_idx {edges : List (K × K)} (cs : ClassState K) {k : K}
    (hk : k ∈ hashesOf edges) :
    ((registerKeys cs (hashesOf edges) 0).hash2seq k).getD 0 =
      (hashesOf edges).indexOf k := by
  rw [registerKeys_mem _ _ _ _ (hashesOf_nodup edges) hk]
  simp

theorem fst_mem_hashesOf {edges : List (K × K)} {e : K × K} (he : e ∈ edges) :
    e.1 ∈ hashesOf edges := by
  unfold hashesOf
  rw [List.mem_dedup, List.mem_append]
  exact Or.inl (List.mem_map_of_mem Prod.fst he)

theorem snd_mem_hashesOf {edges : List (K × K)} {e : K × K} (he : e ∈ edges) :
    e.2 ∈ hashesOf edges := by
  unfold hashesOf
  rw [List.mem_dedup, List.mem_append]
  exact Or.inr (List.mem_map_of_mem Prod.snd he)

/-! ### The identity forest -/
theorem fget_range (n i : Nat) : fget (List.range n) i = i := by
  unfold fget
  rcases Decidable.em (i < n) with h | h
  · rw [List.getD_eq_getElem?_getD, List.getElem?_range h]; rfl
  · rw [List.getD_eq_getElem?_getD,
      List.getElem?_eq_none (by simpa using Nat.le_of_not_lt h)]
    rfl

theorem rootW_range (n i : Nat) : rootW (List.range n) i = i := by
  have : isRoot (List.range n) (iterF 0 (List.range n) i) := fget_range n i
  rw [rootW, rootF_of_iter_root this (Nat.zero_le _)]
  rfl

theorem inv_range (n : Nat) : Inv (List.range n) := by
  constructor
  · intro i hi
    rw [fget_range]
    simpa using hi
  · intro i _
    rw [rootW_range]
    exact fget_range n i

/-! ### The ingestion fold -/
theorem link_fold_spec (idx : K → Nat) (n : Nat) :
    ∀ (todo done : List (K × K)) (L : connectedComponentsLabeler K),
    L.forest.length = n → Inv L.forest →
    (∀ e ∈ todo, idx e.1 < n ∧ idx e.2 < n) →
    (∀ i j, i < n → j < n → (rootW L.forest i = rootW L.forest j ↔
        Joined (done.map (fun e => (idx e.1, idx e.2))) i j)) →
    ((todo.foldl (fun L row => link L (idx row.1) (idx row.2)) L).forest.length = n ∧
     Inv (todo.foldl (fun L row => link L (idx row.1) (idx row.2)) L).forest ∧
     (todo.foldl (fun L row => link L (idx row.1) (idx row.2)) L).hashes = L.hashes ∧
     (todo.foldl (fun L row => link L (idx row.1) (idx row.2)) L).numberOfNodes
       = L.numberOfNodes ∧
     (todo.foldl (fun L row => link L (idx row.1) (idx row.2)) L).edges = L.edges ∧
     (∀ i j, i < n → j < n →
       ((rootW (todo.foldl (fun L row => link L (idx row.1) (idx row.2)) L).forest i =
         rootW (todo.foldl (fun L row => link L (idx row.1) (idx row.2)) L).forest j) ↔
        Joined ((done ++ todo).map (fun e => (idx e.1, idx e.2))) i j))) := by
  intro todo
  induction todo with
  | nil =>
    intro done L hlen hinv _ hrel
    refine ⟨hlen, hinv, rfl, rfl, rfl, ?_⟩
    simpa using hrel
  | cons e todo ih =>
    intro done L hlen hinv hbnd hrel
    have hα : idx e.1 < n := (hbnd e (List.mem_cons_self e todo)).1
    have hβ : idx e.2 < n := (hbnd e (List.mem_cons_self e todo)).2
    have hα' : idx e.1 < L.forest.length := by rw [hlen]; exact hα
    have hβ' : idx e.2 < L.forest.length := by rw [hlen]; exact hβ
    obtain ⟨l1, l2, l3⟩ := linkF_spec hinv hα' hβ'
    have hL1 : link L (idx e.1) (idx e.2) =
        { L with forest := linkF L.forest (idx e.1) (idx e.2) } := link_eq ..
    -- the root relation after the link, as a disjunction over the old roots
    have key : ∀ i j, i < n → j < n →
        (rootW (linkF L.forest (idx e.1) (idx e.2)) i =
         rootW (linkF L.forest (idx e.1) (idx e.2)) j ↔
         (rootW L.forest i = rootW L.forest j ∨
          (rootW L.forest i = rootW L.forest (idx e.1) ∧
           rootW L.forest j = rootW L.forest (idx e.2)) ∨
          (rootW L.forest i = rootW L.forest (idx e.2) ∧
           rootW L.forest j = rootW L.forest (idx e.1)))) := by
      intro i j hi hj
      have hi' : i < L.forest.length := by rw [hlen]; exact hi
      have hj' : j < L.forest.length := by rw [hlen]; exact hj
      rw [l3 i hi', l3 j hj']
      rcases Decidable.em (rootW L.forest (idx e.1) = rootW L.forest (idx e.2))
        with heq | hne
      · simp only [if_pos heq]
        constructor
        · exact Or.inl
        · rintro (h | ⟨h1, h2⟩ | ⟨h1, h2⟩)
          · exact h
          · rw [h1, h2, heq]
          · rw [h1, h2, heq]
      · simp only [if_neg hne]
        rcases Decidable.em (rootW L.forest i = rootW L.forest (idx e.1)) with hia | hia <;>
          rcases Decidable.em (rootW L.forest j = rootW L.forest (idx e.1)) with hja | hja
        · rw [if_pos hia, if_pos hja]
          constructor
          · intro _; exact Or.inl (hia.trans hja.symm)
          · intro _; rfl
        · rw [if_pos hia, if_neg hja]
          constructor
          · intro h; exact Or.inr (Or.inl ⟨hia, h.symm⟩)
          · rintro (h | ⟨h1, h2⟩ | ⟨h1, h2⟩)
            · exact absurd (h.symm.trans hia) hja
            · exact h2.symm
            · exact absurd (hia.symm.trans h1) hne
        · rw [if_neg hia, if_pos hja]
          constructor
          · intro h; exact Or.inr (Or.inr ⟨h, hja⟩)
          · rintro (h | ⟨h1, h2⟩ | ⟨h1, h2⟩)
            · exact absurd (h.trans hja) hia
            · exact absurd (hja.symm.trans h2) hne
            · exact h1
        · rw [if_neg hia, if_neg hja]
          constructor
          · exact Or.inl
          · rintro (h | ⟨h1, h2⟩ | ⟨h1, h2⟩)
            · exact h
            · exact absurd h1 hia
            · exact absurd h2 hja
    -- the closure over one more edge
    have jkey : ∀ i j,
        (Joined ((done ++ [e]).map (fun q => (idx q.1, idx q.2))) i j ↔
         (Joined (done.map (fun q => (idx q.1, idx q.2))) i j ∨
          (Joined (done.map (fun q => (idx q.1, idx q.2))) i (idx e.1) ∧
           Joined (done.map (fun q => (idx q.1, idx q.2))) (idx e.2) j) ∨
          (Joined (done.map (fun q => (idx q.1, idx q.2))) i (idx e.2) ∧
           Joined (done.map (fun q => (idx q.1, idx q.2))) (idx e.1) j))) := by
      intro i j
      rw [List.map_append]
      simp only [List.map_cons, List.map_nil]
      exact joined_append_single
    have hrel1 : ∀ i j, i < n → j < n →
        (rootW (linkF L.forest (idx e.1) (idx e.2)) i =
         rootW (linkF L.forest (idx e.1) (idx e.2)) j ↔
         Joined ((done ++ [e]).map (fun q => (idx q.1, idx q.2))) i j) := by
      intro i j hi hj
      rw [key i j hi hj, jkey i j]
      constructor
      · rintro (h | ⟨h1, h2⟩ | ⟨h1, h2⟩)
        · exact Or.inl ((hrel i j hi hj).1 h)
        · exact Or.inr (Or.inl ⟨(hrel i (idx e.1) hi hα).1 h1,
            ((hrel j (idx e.2) hj hβ).1 h2).symm⟩)
        · exact Or.inr (Or.inr ⟨(hrel i (idx e.2) hi hβ).1 h1,
            ((hrel j (idx e.1) hj hα).1 h2).symm⟩)
      · rintro (h | ⟨h1, h2⟩ | ⟨h1, h2⟩)
        · exact Or.inl ((hrel i j hi hj).2 h)
        · exact Or.inr (Or.inl ⟨(hrel i (idx e.1) hi hα).2 h1,
            (hrel j (idx e.2) hj hβ).2 h2.symm⟩)
        · exact Or.inr (Or.inr ⟨(hrel i (idx e.2) hi hβ).2 h1,
            (hrel j (idx e.1) hj hα).2 h2.symm⟩)
    -- one step of the fold, then the induction hypothesis
    have hstep : (e :: todo).foldl (fun L row => link L (idx row.1) (idx row.2)) L =
        todo.foldl (fun L row => link L (idx row.1) (idx row.2))
          { L with forest := linkF L.forest (idx e.1) (idx e.2) } := by
      rw [List.foldl_cons, hL1]
    rw [hstep]
    have := ih (done ++ [e]) { L with forest := linkF L.forest (idx e.1) (idx e.2) }
      (l1.trans hlen) l2 (fun q hq => hbnd q (List.mem_cons_of_mem e hq)) hrel1
    obtain ⟨c1, c2, c3, c4, c5, c6⟩ := this
    refine ⟨c1, c2, c3, c4, c5, ?_⟩
    intro i j hi hj
    rw [c6 i j hi hj, List.append_assoc]
    rfl

/-! ### Specification of construction -/
theorem idx_lookup (cs : ClassState K) (edges : List (K × K)) {e : K × K}
    (he : e ∈ edges) :
    (((registerKeys cs (hashesOf edges) 0).hash2seq e.1).getD 0 =
      (hashesOf edges).indexOf e.1) ∧
    (((registerKeys cs (hashesOf edges) 0).hash2seq e.2).getD 0 =
      (hashesOf edges).indexOf e.2) :=
  ⟨registered_idx cs (fst_mem_hashesOf he), registered_idx cs (snd_mem_hashesOf he)⟩

theorem makeLabeler_spec (cs : ClassState K) (edges : List (K × K)) :
    (makeLabeler cs edges).1.hashes = hashesOf edges ∧
    (makeLabeler cs edges).1.numberOfNodes = (hashesOf edges).length ∧
    (makeLabeler cs edges).1.edges = edges ∧
    (makeLabeler cs edges).1.forest.length = (hashesOf edges).length ∧
    Inv (makeLabeler cs edges).1.forest ∧
    (∀ i j, i < (hashesOf edges).length → j < (hashesOf edges).length →
      (rootW (makeLabeler cs edges).1.forest i =
         rootW (makeLabeler cs edges).1.forest j ↔
       Joined (edges.map (fun e =>
         ((hashesOf edges).indexOf e.1, (hashesOf edges).indexOf e.2))) i j)) := by
  have hunf : (makeLabeler cs edges).1 =
      edges.foldl
        (fun L row =>
          link L (((registerKeys cs (hashesOf edges) 0).hash2seq row.1).getD 0)
                 (((registerKeys cs (hashesOf edges) 0).hash2seq row.2).getD 0))
        { hashes := hashesOf edges, numberOfNodes := (hashesOf edges).length,
          forest := List.range (hashesOf edges).length, edges := edges } := rfl
  have hbnd : ∀ e ∈ edges,
      (((registerKeys cs (hashesOf edges) 0).hash2seq e.1).getD 0 <
        (hashesOf edges).length) ∧
      (((registerKeys cs (hashesOf edges) 0).hash2seq e.2).getD 0 <
        (hashesOf edges).length) := by
    intro e he
    obtain ⟨h1, h2⟩ := idx_lookup cs edges he
    rw [h1, h2]
    exact ⟨List.indexOf_lt_length.2 (fst_mem_hashesOf he),
           List.indexOf_lt_length.2 (snd_mem_hashesOf he)⟩
  have hrel0 : ∀ i j, i < (hashesOf edges).length → j < (hashesOf edges).length →
      (rootW (List.range (hashesOf edges).length) i =
         rootW (List.range (hashesOf edges).length) j ↔
       Joined (([] : List (K × K)).map (fun e =>
         (((registerKeys cs (hashesOf edges) 0).hash2seq e.1).getD 0,
          ((registerKeys cs (hashesOf edges) 0).hash2seq e.2).getD 0))) i j) := by
    intro i j _ _
    rw [rootW_range, rootW_range]
    constructor
    · rintro rfl; exact Joined.refl i
    · intro h; exact joined_nil h
  obtain ⟨c1, c2, c3, c4, c5, c6⟩ :=
    link_fold_spec
      (fun k => ((registerKeys cs (hashesOf edges) 0).hash2seq k).getD 0)
      (hashesOf edges).length edges []
      { hashes := hashesOf edges, numberOfNodes := (hashesOf edges).length,
        forest := List.range (hashesOf edges).length, edges := edges }
      (List.length_range _) (inv_range _) hbnd hrel0
  rw [hunf]
  refine ⟨c3, c4, c5, c1, c2, ?_⟩
  intro i j hi hj
  rw [c6 i j hi hj, List.nil_append]
  have hmap : edges.map (fun e =>
      (((registerKeys cs (hashesOf edges) 0).hash2seq e.1).getD 0,
       ((registerKeys cs (hashesOf edges) 0).hash2seq e.2).getD 0)) =
      edges.map (fun e =>
      ((hashesOf edges).indexOf e.1, (hashesOf edges).indexOf e.2)) := by
    apply List.map_congr_left
    intro e he
    obtain ⟨h1, h2⟩ := idx_lookup cs edges he
    rw [h1, h2]
  rw [hmap]

/-- The labeler built by `__init__` does not depend on the prior contents of
the shared class-level dictionaries: every lookup performed during
construction hits a key that the run itself has just registered. -/
theorem makeLabeler_fst_indep (cs cs' : ClassState K) (edges : List (K × K)) :
    (makeLabeler cs edges).1 = (makeLabeler cs' edges).1 := by
  show (edges.foldl _ _) = (edges.foldl _ _)
  apply List.foldl_ext
  intro L e he
  obtain ⟨a1, a2⟩ := idx_lookup cs edges he
  obtain ⟨b1, b2⟩ := idx_lookup cs' edges he
  rw [a1, a2, b1, b2]

/-! ### Specification of `simplifyForest` -/
theorem ccIdF_root {f : List Nat} {node : Nat} (h : fget f node = node) (fuel : Nat) :
    ccIdF fuel f node = (node, f) := by
  cases fuel with
  | zero => rfl
  | succ fuel => simp [ccIdF, h]

theorem simplify_fold {f : List Nat} :
    ∀ (l : List Nat) (g : List Nat),
    (∀ i ∈ l, i < f.length) →
    g.length = f.length → Inv g →
    (∀ j < f.length, rootW g j = rootW f j) →
    ((l.foldl simplifyStep g).length = f.length ∧
     Inv (l.foldl simplifyStep g) ∧
     (∀ j < f.length, rootW (l.foldl simplifyStep g) j = rootW f j) ∧
     (∀ x, x < f.length → fget g x = rootW f x →
        fget (l.foldl simplifyStep g) x = rootW f x) ∧
     (∀ i ∈ l, fget (l.foldl simplifyStep g) i = rootW f i)) := by
  intro l
  induction l with
  | nil =>
    intro g _ hlen hinv hroots
    exact ⟨hlen, hinv, hroots, fun x _ hx => hx, fun i hi => absurd hi (List.not_mem_nil i)⟩
  | cons a t ih =>
    intro g hmem hlen hinv hroots
    have ha : a < f.length := hmem a (List.mem_cons_self a t)
    have ha' : a < g.length := by rw [hlen]; exact ha
    obtain ⟨s1, s2, s3, s4, s5, s6⟩ := ccIdF_len_spec hinv ha'
    set r := ccIdF g.length g a with hrdef
    have hstep : simplifyStep g a = fset r.2 a r.1 := rfl
    have ha2 : a < r.2.length := by rw [s2]; exact ha'
    have hr1 : r.1 = rootW r.2 a := by rw [s1, s4 a ha']
    obtain ⟨p1, p2⟩ := fset_root_spec s3 ha2
    have hg1len : (fset r.2 a r.1).length = f.length := by
      rw [length_fset, s2, hlen]
    have hg1inv : Inv (fset r.2 a r.1) := by rw [hr1]; exact p2
    have hg1roots : ∀ j < f.length, rootW (fset r.2 a r.1) j = rootW f j := by
      intro j hj
      have hj2 : j < r.2.length := by rw [s2, hlen]; exact hj
      have hjg : j < g.length := by rw [hlen]; exact hj
      rw [hr1, p1 j hj2, s4 j hjg, hroots j hj]
    -- the entry a now names its root, and stays resolved through the set
    have hres_a : fget (fset r.2 a r.1) a = rootW f a := by
      rw [fget_fset_self _ _ _ ha2, s1]
      exact hroots a ha
    -- resolved entries stay resolved through ccIdF compression and the set
    have hres_keep : ∀ x, x < f.length → fget g x = rootW f x →
        fget (fset r.2 a r.1) x = rootW f x := by
      intro x hx hgx
      have hxg : x < g.length := by rw [hlen]; exact hx
      rcases Decidable.em (x = a) with rfl | hxa
      · exact hres_a
      · rw [fget_fset_other _ _ _ _ hxa]
        rcases s6 x with h | h
        · rw [h, hgx]
        · rw [h]
          exact hroots x hx
    have hfold : (a :: t).foldl simplifyStep g = t.foldl simplifyStep (fset r.2 a r.1) := by
      rw [List.foldl_cons, hstep]
    rw [hfold]
    obtain ⟨q1, q2, q3, q4, q5⟩ := ih (fset r.2 a r.1)
      (fun i hi => hmem i (List.mem_cons_of_mem a hi)) hg1len hg1inv hg1roots
    refine ⟨q1, q2, q3, ?_, ?_⟩
    · intro x hx hgx
      exact q4 x hx (hres_keep x hx hgx)
    · intro i hi
      rcases List.mem_cons.1 hi with rfl | hit
      · exact q4 i ha hres_a
      · exact q5 i hit
  -- end induction

theorem simplifyF_spec {f : List Nat} (hinv : Inv f) :
    (simplifyF f).length = f.length ∧ Inv (simplifyF f) ∧
    (∀ j < f.length, rootW (simplifyF f) j = rootW f j) ∧
    (∀ i < f.length, fget (simplifyF f) i = rootW f i) := by
  obtain ⟨c1, c2, c3, _, c5⟩ := simplify_fold (List.range f.length) f
    (fun i hi => List.mem_range.1 hi) rfl hinv (fun j _ => rfl)
  exact ⟨c1, c2, c3, fun i hi => c5 i (List.mem_range.2 hi)⟩

/-! ### Resolution is idempotent -/
theorem fset_noop {f : List Nat} {i v : Nat} (hi : i < f.length) (hv : fget f i = v) :
    fset f i v = f := by
  apply List.ext_getElem?
  intro j
  unfold fset
  rw [List.getElem?_set]
  rcases Decidable.em (i = j) with rfl | hij
  · rw [if_pos rfl, if_pos hi]
    unfold fget at hv
    rw [List.getD_eq_getElem?_getD, List.getElem?_eq_getElem hi] at hv
    simp only [Option.getD_some] at hv
    rw [List.getElem?_eq_getElem hi]
    exact congrArg some hv.symm
  · rw [if_neg hij]

theorem simplifyStep_noop {g : List Nat} (hinv : Inv g)
    (hres : ∀ i < g.length, fget g i = rootW g i) {a : Nat} (ha : a < g.length) :
    simplifyStep g a = g := by
  rcases Decidable.em (fget g a = a) with hroot | hroot
  · show fset (ccIdF g.length g a).2 a (ccIdF g.length g a).1 = g
    rw [ccIdF_root hroot]
    exact fset_noop ha hroot
  · have hr : fget g a = rootW g a := hres a ha
    have hrootr : fget g (fget g a) = fget g a := by
      rw [hr]; exact hinv.2 a ha
    have hcc : ccIdF g.length g a = (fget g a, g) := by
      cases hl : g.length with
      | zero => omega
      | succ m =>
        simp only [ccIdF, if_pos hroot]
        rw [ccIdF_root hrootr]
        exact congrArg _ (fset_noop ha rfl)
    show fset (ccIdF g.length g a).2 a (ccIdF g.length g a).1 = g
    rw [hcc]
    exact fset_noop ha rfl

theorem fold_noop : ∀ (l : List Nat) (g : List Nat), Inv g →
    (∀ i < g.length, fget g i = rootW g i) → (∀ i ∈ l, i < g.length) →
    l.foldl simplifyStep g = g := by
  intro l
  induction l with
  | nil => intro g _ _ _; rfl
  | cons a t ih =>
    intro g hinv hres hmem
    rw [List.foldl_cons, simplifyStep_noop hinv hres (hmem a (List.mem_cons_self a t))]
    exact ih g hinv hres (fun i hi => hmem i (List.mem_cons_of_mem a hi))

theorem simplifyF_resolved {f : List Nat} (hinv : Inv f) :
    ∀ i < (simplifyF f).length, fget (simplifyF f) i = rootW (simplifyF f) i := by
  obtain ⟨c1, c2, c3, c4⟩ := simplifyF_spec hinv
  intro i hi
  rw [c1] at hi
  rw [c4 i hi, c3 i hi]

theorem simplifyF_idem {f : List Nat} (hinv : Inv f) :
    simplifyF (simplifyF f) = simplifyF f := by
  obtain ⟨c1, c2, c3, c4⟩ := simplifyF_spec hinv
  show (List.range (simplifyF f).length).foldl simplifyStep (simplifyF f) = simplifyF f
  exact fold_noop _ _ c2 (simplifyF_resolved hinv) (fun i hi => List.mem_range.1 hi)

/-! ### The output relation -/
theorem fget_eq_get {g : List Nat} {i : Nat} (h : i < g.length) :
    fget g i = g.get ⟨i, h⟩ := by
  unfold fget
  rw [List.getD_eq_getElem?_getD, List.getElem?_eq_getElem h]
  rfl

theorem getD_indexOf {hs : List K} {k : K} (hk : k ∈ hs) (d : K) :
    hs.getD (hs.indexOf k) d = k := by
  have h : hs.indexOf k < hs.length := List.indexOf_lt_length.2 hk
  rw [List.getD_eq_getElem?_getD, List.getElem?_eq_getElem h]
  exact List.getElem_indexOf h

theorem mem_zip_iff {hs : List K} {g : List Nat} (hnd : hs.Nodup)
    (hlen : g.length = hs.length) {x : K} {v : Nat} :
    ((x, v) ∈ hs.zip g) ↔ (x ∈ hs ∧ v = fget g (hs.indexOf x)) := by
  constructor
  · intro h
    obtain ⟨i, hi, he⟩ := List.mem_iff_getElem.1 h
    have hiz : i < hs.length ∧ i < g.length := by
      rw [List.length_zip] at hi
      omega
    rw [List.getElem_zip] at he
    have hx : hs[i] = x := congrArg Prod.fst he
    have hv : g[i] = v := congrArg Prod.snd he
    have hidx : hs.indexOf x = i := by
      rw [← hx]
      exact List.indexOf_getElem hnd i hiz.1
    refine ⟨hx ▸ List.getElem_mem hiz.1, ?_⟩
    rw [hidx, fget_eq_get hiz.2, List.get_eq_getElem, hv]
  · rintro ⟨hx, rfl⟩
    have h1 : hs.indexOf x < hs.length := List.indexOf_lt_length.2 hx
    have h2 : hs.indexOf x < g.length := by omega
    apply List.mem_iff_getElem.2
    refine ⟨hs.indexOf x, by rw [List.length_zip]; omega, ?_⟩
    rw [List.getElem_zip]
    rw [fget_eq_get h2, List.get_eq_getElem]
    rw [List.getElem_indexOf h1]

/-- Rows of the returned DataFrame: one row per key, carrying the root of its
index in the resolved forest. -/
theorem out_mem_iff (cs : ClassState K) (edges : List (K × K)) {x : K} {v : Nat} :
    ((x, v) ∈ (getConnectedCompontents (makeLabeler cs edges).1).2) ↔
    (x ∈ hashesOf edges ∧
     v = rootW (makeLabeler cs edges).1.forest ((hashesOf edges).indexOf x)) := by
  obtain ⟨m1, m2, m3, m4, m5, m6⟩ := makeLabeler_spec cs edges
  obtain ⟨s1, s2, s3, s4⟩ := simplifyF_spec m5
  have hout : (getConnectedCompontents (makeLabeler cs edges).1).2 =
      (hashesOf edges).zip (simplifyF (makeLabeler cs edges).1.forest) := by
    show (simplifyForest (makeLabeler cs edges).1).hashes.zip
      (simplifyForest (makeLabeler cs edges).1).forest = _
    rw [simplifyForest_eq, ← m1]
  rw [hout, mem_zip_iff (m1 ▸ hashesOf_nodup edges) (by rw [s1, m4])]
  constructor
  · rintro ⟨hx, rfl⟩
    have hidx : (hashesOf edges).indexOf x < (makeLabeler cs edges).1.forest.length := by
      rw [m4]
      exact List.indexOf_lt_length.2 hx
    exact ⟨hx, s4 _ hidx⟩
  · rintro ⟨hx, rfl⟩
    have hidx : (hashesOf edges).indexOf x < (makeLabeler cs edges).1.forest.length := by
      rw [m4]
      exact List.indexOf_lt_length.2 hx
    exact ⟨hx, (s4 _ hidx).symm⟩

/-! ### Transfer between keys and indices -/
theorem joined_idx_of_joined {edges : List (K × K)} {x y : K}
    (h : Joined edges x y) :
    Joined (edges.map (fun e =>
      ((hashesOf edges).indexOf e.1, (hashesOf edges).indexOf e.2)))
      ((hashesOf edges).indexOf x) ((hashesOf edges).indexOf y) := by
  induction h with
  | edge h =>
    exact Joined.edge (List.mem_map_of_mem _ h)
  | refl a => exact Joined.refl _
  | symm _ ih => exact ih.symm
  | trans _ _ ih1 ih2 => exact ih1.trans ih2

theorem joined_of_joined_idx {edges : List (K × K)} {x : K} :
    ∀ {i j : Nat},
    Joined (edges.map (fun e =>
      ((hashesOf edges).indexOf e.1, (hashesOf edges).indexOf e.2))) i j →
    Joined edges ((hashesOf edges).getD i x) ((hashesOf edges).getD j x) := by
  intro i j h
  induction h with
  | edge h =>
    obtain ⟨e, he, heq⟩ := List.mem_map.1 h
    have h1 : (hashesOf edges).getD ((hashesOf edges).indexOf e.1) x = e.1 :=
      getD_indexOf (fst_mem_hashesOf he) x
    have h2 : (hashesOf edges).getD ((hashesOf edges).indexOf e.2) x = e.2 :=
      getD_indexOf (snd_mem_hashesOf he) x
    rw [Prod.mk.injEq] at heq
    obtain ⟨hfst, hsnd⟩ := heq
    rw [← hfst, ← hsnd, h1, h2]
    exact Joined.edge he
  | refl a => exact Joined.refl _
  | symm _ ih => exact ih.symm
  | trans _ _ ih1 ih2 => exact ih1.trans ih2

theorem joined_idx_iff {edges : List (K × K)} {x y : K}
    (hx : x ∈ hashesOf edges) (hy : y ∈ hashesOf edges) :
    Joined (edges.map (fun e =>
      ((hashesOf edges).indexOf e.1, (hashesOf edges).indexOf e.2)))
      ((hashesOf edges).indexOf x) ((hashesOf edges).indexOf y) ↔
    Joined edges x y := by
  constructor
  · intro h
    have := joined_of_joined_idx (x := x) h
    rwa [getD_indexOf hx x, getD_indexOf hy x] at this
  · exact joined_idx_of_joined

/-! ### Component counting -/
theorem linkF_count {f : List Nat} (hinv : Inv f) {a b : Nat}
    (ha : a < f.length) (hb : b < f.length) :
    (rootW f a = rootW f b →
       distinctComponents (linkF f a b) = distinctComponents f) ∧
    (rootW f a ≠ rootW f b →
       distinctComponents (linkF f a b) + 1 = distinctComponents f) := by
  obtain ⟨l1, l2, l3⟩ := linkF_spec hinv ha hb
  have hen : distinctComponents (linkF f a b) =
      ((Finset.range f.length).image (rootW (linkF f a b))).card := by
    unfold distinctComponents
    rw [l1]
  constructor
  · intro heq
    rw [hen]
    unfold distinctComponents
    congr 1
    apply Finset.image_congr
    intro j hj
    simp only [Finset.coe_range, Set.mem_Iio] at hj
    rw [l3 j hj, if_pos heq]
  · intro hne
    rw [hen]
    have himg : (Finset.range f.length).image (rootW (linkF f a b)) =
        ((Finset.range f.length).image (rootW f)).image
          (fun r => if r = rootW f a then rootW f b else r) := by
      rw [Finset.image_image]
      apply Finset.image_congr
      intro j hj
      simp only [Finset.coe_range, Set.mem_Iio] at hj
      rw [l3 j hj, if_neg hne]
      rfl
    have hRa : rootW f a ∈ (Finset.range f.length).image (rootW f) :=
      Finset.mem_image.2 ⟨a, Finset.mem_range.2 ha, rfl⟩
    have hRb : rootW f b ∈ (Finset.range f.length).image (rootW f) :=
      Finset.mem_image.2 ⟨b, Finset.mem_range.2 hb, rfl⟩
    have herase : ((Finset.range f.length).image (rootW f)).image
        (fun r => if r = rootW f a then rootW f b else r) =
        ((Finset.range f.length).image (rootW f)).erase (rootW f a) := by
      apply Finset.ext
      intro x
      rw [Finset.mem_image, Finset.mem_erase]
      constructor
      · rintro ⟨s, hs, rfl⟩
        rcases Decidable.em (s = rootW f a) with rfl | hsa
        · rw [if_pos rfl]
          exact ⟨fun h => hne h.symm, hRb⟩
        · rw [if_neg hsa]
          exact ⟨hsa, hs⟩
      · rintro ⟨hxa, hx⟩
        exact ⟨x, hx, if_neg hxa⟩
    rw [himg, herase, Finset.card_erase_of_mem hRa]
    have : 1 ≤ ((Finset.range f.length).image (rootW f)).card :=
      Finset.Nonempty.card_pos ⟨rootW f a, hRa⟩
    unfold distinctComponents
    omega

theorem range_map_add (s M : Nat) :
    (List.range M).map (fun k => k + s) = List.range' s M := by
  rw [List.range'_eq_map_range]
  apply List.map_congr_left
  intro k _
  omega

theorem subset_union_eq : ∀ (l M : List Nat), (∀ x ∈ l, x ∈ M) → l ∪ M = M := by
  intro l
  induction l with
  | nil => intro M _; rfl
  | cons a t ih =>
    intro M h
    rw [List.cons_union, ih M (fun x hx => h x (List.mem_cons_of_mem a hx))]
    exact List.insert_of_mem (h a (List.mem_cons_self a t))

theorem chain_hashes (m : Nat) :
    hashesOf (chainEdges (m + 1)) = List.range' 1 (m + 2) := by
  have h1 : (chainEdges (m + 1)).map Prod.fst = List.range' 1 (m + 1) := by
    unfold chainEdges
    rw [List.map_map]
    rw [show (Prod.fst ∘ fun k => (k + 1, k + 2)) = fun k => k + 1 from rfl]
    exact range_map_add 1 (m + 1)
  have h2 : (chainEdges (m + 1)).map Prod.snd = List.range' 2 (m + 1) := by
    unfold chainEdges
    rw [List.map_map]
    rw [show (Prod.snd ∘ fun k => (k + 1, k + 2)) = fun k => k + 2 from rfl]
    exact range_map_add 2 (m + 1)
  unfold hashesOf
  rw [h1, h2, List.dedup_append, List.dedup_eq_self.2 (List.nodup_range' _ _)]
  rw [show List.range' 1 (m + 1) = 1 :: List.range' 2 m from List.range'_succ 1 m 1]
  rw [List.cons_union]
  rw [subset_union_eq (List.range' 2 m) (List.range' 2 (m + 1)) ?side]
  case side =>
    intro x hx
    rw [List.mem_range'_1] at hx ⊢
    omega
  rw [List.insert_of_not_mem ?nm]
  case nm =>
    intro hmem
    rw [List.mem_range'_1] at hmem
    omega
  exact (List.range'_succ 1 (m + 1) 1).symm

theorem indexOf_range' : ∀ (n s k : Nat), s ≤ k → k < s + n →
    (List.range' s n).indexOf k = k - s := by
  intro n
  induction n with
  | zero => intro s k h1 h2; omega
  | succ n ih =>
    intro s k h1 h2
    rw [List.range'_succ]
    rcases Decidable.em (k = s) with rfl | hks
    · rw [List.indexOf_cons_self]
      omega
    · rw [List.indexOf_cons_ne _ (fun h => hks h.symm)]
      rw [ih (s + 1) k (by omega) (by omega)]
      omega

/-- Ingesting the chain edges in order builds the path forest
`forest[i] = i+1` for `i < t`, identity above. -/
theorem chain_fold (m : Nat) : ∀ (t : Nat), t ≤ m + 1 →
    ∀ (L0 : connectedComponentsLabeler Nat),
    L0.forest.length = m + 2 →
    (∀ i, fget L0.forest i = i) →
    (((List.range t).foldl (fun L k => link L k (k + 1)) L0).forest.length = m + 2 ∧
     (∀ i, fget ((List.range t).foldl (fun L k => link L k (k + 1)) L0).forest i =
        if i < t then i + 1 else i)) := by
  intro t
  induction t with
  | zero =>
    intro _ L0 hlen hval
    refine ⟨hlen, ?_⟩
    intro i
    rw [if_neg (by omega)]
    exact hval i
  | succ t ih =>
    intro ht L0 hlen hval
    obtain ⟨c1, c2⟩ := ih (by omega) L0 hlen hval
    set F := ((List.range t).foldl (fun L k => link L k (k + 1)) L0).forest with hF
    have hrt : fget F t = t := by rw [c2 t, if_neg (by omega)]
    have hrt1 : fget F (t + 1) = t + 1 := by rw [c2 (t + 1), if_neg (by omega)]
    have hfold : (List.range (t + 1)).foldl (fun L k => link L k (k + 1)) L0 =
        link ((List.range t).foldl (fun L k => link L k (k + 1)) L0) t (t + 1) := by
      rw [List.range_succ, List.foldl_append, List.foldl_cons, List.foldl_nil]
    rw [hfold, link_eq]
    have hlinkF : linkF F t (t + 1) = fset F t (t + 1) := by
      unfold linkF
      simp only [ccIdF_root hrt, ccIdF_root hrt1]
      rw [if_pos (show t ≠ t + 1 by omega)]
    refine ⟨?_, ?_⟩
    · show (linkF F t (t + 1)).length = m + 2
      rw [hlinkF, length_fset, c1]
    · intro i
      show fget (linkF F t (t + 1)) i = _
      rw [hlinkF, fget_fset]
      rcases Decidable.em (i = t ∧ t < F.length) with h | h
      · rw [if_pos h, if_pos (by omega), h.1]
      · rw [if_neg h, c2 i]
        have htF : t < F.length := by rw [c1]; omega
        rcases Decidable.em (i < t) with hit | hit
        · rw [if_pos hit, if_pos (by omega)]
        · have hine : ¬ (i < t + 1) := by
            rcases Decidable.em (i = t) with rfl | hne
            · exact absurd ⟨rfl, htF⟩ h
            · omega
          rw [if_neg (by omega), if_neg hine]

/-- Properties of the fully ingested chain forest: single component rooted at
`m+1`, recursion depth of `connectedComponentIdentifier` growing linearly
with the distance to the root. -/
theorem chainF_props (m : Nat) (F : List Nat) (hlen : F.length = m + 2)
    (hval : ∀ i, fget F i = if i < m + 1 then i + 1 else i) :
    Inv F ∧ (∀ i < m + 2, rootW F i = m + 1) ∧
    (∀ d i fuel, i + d = m + 1 → d + 1 ≤ fuel → ccDepth fuel F i = d + 1) := by
  have hroot : isRoot F (m + 1) := by
    show fget F (m + 1) = m + 1
    rw [hval, if_neg (by omega)]
  have hreach : ∀ d i, i + d = m + 1 → iterF d F i = m + 1 := by
    intro d
    induction d with
    | zero => intro i hi; simpa [iterF] using hi
    | succ d ih =>
      intro i hi
      rw [iterF, hval, if_pos (by omega)]
      exact ih (i + 1) (by omega)
  have hrange : InRange F := by
    intro i hi
    rw [hval]
    rcases Decidable.em (i < m + 1) with h | h
    · rw [if_pos h]; omega
    · rw [if_neg h]; exact hi
  have hroots : ∀ i < m + 2, rootW F i = m + 1 ∧ isRoot F (rootW F i) := by
    intro i hi
    exact rootW_eq_of_reach hrange (show i < F.length by omega)
      ⟨m + 1 - i, hreach (m + 1 - i) i (by omega), hroot⟩
  have hdepth : ∀ d i fuel, i + d = m + 1 → d + 1 ≤ fuel → ccDepth fuel F i = d + 1 := by
    intro d
    induction d with
    | zero =>
      intro i fuel hi hfuel
      cases fuel with
      | zero => omega
      | succ fuel =>
        have : fget F i = i := by rw [hval, if_neg (by omega)]
        simp [ccDepth, this]
    | succ d ih =>
      intro i fuel hi hfuel
      cases fuel with
      | zero => omega
      | succ fuel =>
        have hv : fget F i = i + 1 := by rw [hval, if_pos (by omega)]
        rw [ccDepth, if_pos (by rw [hv]; omega), hv, ih (i + 1) fuel (by omega) (by omega)]
  exact ⟨⟨hrange, fun i hi => (hroots i (by rw [← hlen]; exact hi)).2⟩,
    fun i hi => (hroots i hi).1, hdepth⟩

/-- The forest that `__init__` builds on the chain input. -/
theorem chain_labeler_forest (m : Nat) (cs : ClassState Nat) :
    ((makeLabeler cs (chainEdges (m + 1))).1.forest.length = m + 2) ∧
    (∀ i, fget (makeLabeler cs (chainEdges (m + 1))).1.forest i =
       if i < m + 1 then i + 1 else i) := by
  have hh : hashesOf (chainEdges (m + 1)) = List.range' 1 (m + 2) := chain_hashes m
  have hn : (hashesOf (chainEdges (m + 1))).length = m + 2 := by
    rw [hh, List.length_range']
  have hmem : ∀ row ∈ chainEdges (m + 1), ∃ k, k < m + 1 ∧ row = (k + 1, k + 2) := by
    intro row hrow
    obtain ⟨k, hk, heq⟩ := List.mem_map.1 hrow
    exact ⟨k, List.mem_range.1 hk, heq.symm⟩
  have hidx : ∀ row ∈ chainEdges (m + 1),
      (((registerKeys cs (hashesOf (chainEdges (m + 1))) 0).hash2seq row.1).getD 0
         = row.1 - 1) ∧
      (((registerKeys cs (hashesOf (chainEdges (m + 1))) 0).hash2seq row.2).getD 0
         = row.2 - 1) := by
    intro row hrow
    obtain ⟨h1, h2⟩ := idx_lookup cs (chainEdges (m + 1)) hrow
    obtain ⟨k, hk, rfl⟩ := hmem row hrow
    refine ⟨?_, ?_⟩
    · rw [h1, hh]
      exact indexOf_range' (m + 2) 1 (k + 1) (by omega) (by omega)
    · rw [h2, hh]
      exact indexOf_range' (m + 2) 1 (k + 2) (by omega) (by omega)
  have hunf : (makeLabeler cs (chainEdges (m + 1))).1 =
      (chainEdges (m + 1)).foldl
        (fun L row =>
          link L (((registerKeys cs (hashesOf (chainEdges (m + 1))) 0).hash2seq
                     row.1).getD 0)
                 (((registerKeys cs (hashesOf (chainEdges (m + 1))) 0).hash2seq
                     row.2).getD 0))
        { hashes := hashesOf (chainEdges (m + 1)),
          numberOfNodes := (hashesOf (chainEdges (m + 1))).length,
          forest := List.range (hashesOf (chainEdges (m + 1))).length,
          edges := chainEdges (m + 1) } := rfl
  have hsimpl : (makeLabeler cs (chainEdges (m + 1))).1 =
      (chainEdges (m + 1)).foldl (fun L row => link L (row.1 - 1) (row.2 - 1))
        { hashes := hashesOf (chainEdges (m + 1)),
          numberOfNodes := (hashesOf (chainEdges (m + 1))).length,
          forest := List.range (hashesOf (chainEdges (m + 1))).length,
          edges := chainEdges (m + 1) } := by
    rw [hunf]
    apply List.foldl_ext
    intro L row hrow
    obtain ⟨h1, h2⟩ := hidx row hrow
    rw [h1, h2]
  have hmap : (chainEdges (m + 1)).foldl
      (fun L row => link L (row.1 - 1) (row.2 - 1))
      { hashes := hashesOf (chainEdges (m + 1)),
        numberOfNodes := (hashesOf (chainEdges (m + 1))).length,
        forest := List.range (hashesOf (chainEdges (m + 1))).length,
        edges := chainEdges (m + 1) } =
      (List.range (m + 1)).foldl (fun L k => link L k (k + 1))
      { hashes := hashesOf (chainEdges (m + 1)),
        numberOfNodes := (hashesOf (chainEdges (m + 1))).length,
        forest := List.range (hashesOf (chainEdges (m + 1))).length,
        edges := chainEdges (m + 1) } := by
    unfold chainEdges
    rw [List.foldl_map]
    rfl
  obtain ⟨c1, c2⟩ := chain_fold m (m + 1) (Nat.le_refl _)
    { hashes := hashesOf (chainEdges (m + 1)),
      numberOfNodes := (hashesOf (chainEdges (m + 1))).length,
      forest := List.range (hashesOf (chainEdges (m + 1))).length,
      edges := chainEdges (m + 1) }
    (by show (List.range _).length = m + 2; rw [List.length_range, hn])
    (fun i => fget_range _ i)
  rw [hsimpl, hmap]
  exact ⟨c1, c2⟩

/-! ### Core correctness, shared by several results below -/
theorem out_eq (cs : ClassState K) (edges : List (K × K)) :
    (getConnectedCompontents (makeLabeler cs edges).1).2 =
      (hashesOf edges).zip (simplifyF (makeLabeler cs edges).1.forest) := by
  obtain ⟨m1, _, _, _, _, _⟩ := makeLabeler_spec cs edges
  show (simplifyForest (makeLabeler cs edges).1).hashes.zip
    (simplifyForest (makeLabeler cs edges).1).forest = _
  rw [simplifyForest_eq, ← m1]

theorem roots_iff_joined (cs : ClassState K) (E : List (K × K)) {x y : K}
    (hx : x ∈ hashesOf E) (hy : y ∈ hashesOf E) :
    (rootW (makeLabeler cs E).1.forest ((hashesOf E).indexOf x) =
       rootW (makeLabeler cs E).1.forest ((hashesOf E).indexOf y) ↔
     Joined E x y) := by
  obtain ⟨m1, m2, m3, m4, m5, m6⟩ := makeLabeler_spec cs E
  rw [m6 _ _ (List.indexOf_lt_length.2 hx) (List.indexOf_lt_length.2 hy)]
  exact joined_idx_iff hx hy

theorem labels_iff_joined (cs : ClassState K) (E : List (K × K)) {x y : K} {lx ly : Nat}
    (hx : (x, lx) ∈ (getConnectedCompontents (makeLabeler cs E).1).2)
    (hy : (y, ly) ∈ (getConnectedCompontents (makeLabeler cs E).1).2) :
    (lx = ly ↔ Joined E x y) := by
  obtain ⟨hx1, hx2⟩ := (out_mem_iff cs E).1 hx
  obtain ⟨hy1, hy2⟩ := (out_mem_iff cs E).1 hy
  rw [hx2, hy2]
  exact roots_iff_joined cs E hx1 hy1

/-- C1: for every edge list ingested at construction, the labeling produced
by `connectedComponentsLabeler` is correct: two keys that appear in some edge
receive equal labels in the output of `getConnectedCompontents` iff they are
transitively connected by the ingested edges; equivalently, the root lookup
on their indices returns the same root iff they are connected. -/
theorem C1_labels_iff_connected (cs : ClassState K) (E : List (K × K))
    (x y : K) (lx ly : Nat)
    (hx : (x, lx) ∈ (getConnectedCompontents (makeLabeler cs E).1).2)
    (hy : (y, ly) ∈ (getConnectedCompontents (makeLabeler cs E).1).2) :
    (lx = ly ↔ Joined E x y) ∧
    (rootW (makeLabeler cs E).1.forest ((hashesOf E).indexOf x) =
       rootW (makeLabeler cs E).1.forest ((hashesOf E).indexOf y) ↔
     Joined E x y) :=
  ⟨labels_iff_joined cs E hx hy,
   roots_iff_joined cs E ((out_mem_iff cs E).1 hx).1 ((out_mem_iff cs E).1 hy).1⟩

theorem C1_witness : Joined [((1 : Nat), 2)] 1 2 :=
  ((C1_labels_iff_connected (ClassState.fresh Nat) [(1, 2)] 1 2 1 1
      (by decide) (by decide)).1).mp rfl

/-- C2: no observable state is shared between labeler runs.  Although
`hash2seq`/`seq2hash` are class-level dictionaries mutated by every
construction, a second labeler built after any first run produces exactly
the same instance — and hence exactly the same key-to-label relation — as a
labeler built from the pristine class state. -/
theorem C2_no_shared_state (cs : ClassState K) (E1 E2 : List (K × K)) :
    (makeLabeler (makeLabeler cs E1).2 E2).1 =
      (makeLabeler (ClassState.fresh K) E2).1 ∧
    (getConnectedCompontents (makeLabeler (makeLabeler cs E1).2 E2).1).2 =
      (getConnectedCompontents (makeLabeler (ClassState.fresh K) E2).1).2 := by
  have h := makeLabeler_fst_indep (makeLabeler cs E1).2 (ClassState.fresh K) E2
  exact ⟨h, by rw [h]⟩

/-- C5: resolution is idempotent.  After one `simplifyForest` every forest
entry directly names its true root (which is a root of the simplified forest
as well); a second `simplifyForest` is the identity, and calling
`getConnectedCompontents` again returns an identical instance and an
identical key-to-label output. -/
theorem C5_resolve_idempotent (cs : ClassState K) (E : List (K × K)) :
    (∀ i < (makeLabeler cs E).1.forest.length,
       fget (simplifyForest (makeLabeler cs E).1).forest i =
         rootW (makeLabeler cs E).1.forest i ∧
       isRoot (simplifyForest (makeLabeler cs E).1).forest
         (fget (simplifyForest (makeLabeler cs E).1).forest i)) ∧
    simplifyForest (simplifyForest (makeLabeler cs E).1) =
      simplifyForest (makeLabeler cs E).1 ∧
    getConnectedCompontents ((getConnectedCompontents (makeLabeler cs E).1).1) =
      getConnectedCompontents (makeLabeler cs E).1 := by
  obtain ⟨m1, m2, m3, m4, m5, m6⟩ := makeLabeler_spec cs E
  obtain ⟨s1, s2, s3, s4⟩ := simplifyF_spec m5
  have hidem : simplifyForest (simplifyForest (makeLabeler cs E).1) =
      simplifyForest (makeLabeler cs E).1 := by
    rw [simplifyForest_eq (makeLabeler cs E).1, simplifyForest_eq]
    show ({ (makeLabeler cs E).1 with
      forest := simplifyF (simplifyF (makeLabeler cs E).1.forest) } : _) = _
    rw [simplifyF_idem m5]
  refine ⟨?_, hidem, ?_⟩
  · intro i hi
    rw [simplifyForest_eq]
    refine ⟨s4 i hi, ?_⟩
    show fget (simplifyF (makeLabeler cs E).1.forest)
      (fget (simplifyF (makeLabeler cs E).1.forest) i) =
      fget (simplifyF (makeLabeler cs E).1.forest) i
    rw [s4 i hi]
    have hr : rootW (makeLabeler cs E).1.forest i < (makeLabeler cs E).1.forest.length :=
      rootW_lt m5 hi
    rw [s4 _ hr, rootW_idem m5 hi]
  · show getConnectedCompontents (simplifyForest (makeLabeler cs E).1) = _
    unfold getConnectedCompontents
    rw [hidem]

/-- C8: an empty edge list registers no keys, yields zero components, and the
output relation is empty. -/
theorem C8_empty_input (cs : ClassState K) :
    (makeLabeler cs ([] : List (K × K))).1.hashes = [] ∧
    (makeLabeler cs ([] : List (K × K))).1.numberOfNodes = 0 ∧
    distinctComponents (makeLabeler cs ([] : List (K × K))).1.forest = 0 ∧
    (getConnectedCompontents (makeLabeler cs ([] : List (K × K))).1).2 = [] :=
  ⟨rfl, rfl, rfl, rfl⟩

/-- C9: frame condition — `connectedComponentIdentifier`, `link` and
`simplifyForest` change only the `forest` field of the instance; `hashes`,
`numberOfNodes` and the stored `edges` are untouched (none of these methods
even receives the class-level dictionaries). -/
theorem C9_frame_condition (L : connectedComponentsLabeler K) (node a b : Nat) :
    ((connectedComponentIdentifier L node).2.hashes = L.hashes ∧
     (connectedComponentIdentifier L node).2.numberOfNodes = L.numberOfNodes ∧
     (connectedComponentIdentifier L node).2.edges = L.edges) ∧
    ((link L a b).hashes = L.hashes ∧
     (link L a b).numberOfNodes = L.numberOfNodes ∧
     (link L a b).edges = L.edges) ∧
    ((simplifyForest L).hashes = L.hashes ∧
     (simplifyForest L).numberOfNodes = L.numberOfNodes ∧
     (simplifyForest L).edges = L.edges) := by
  refine ⟨⟨rfl, rfl, rfl⟩, ?_, ?_⟩
  · rw [link_eq]
    exact ⟨rfl, rfl, rfl⟩
  · rw [simplifyForest_eq]
    exact ⟨rfl, rfl, rfl⟩

/-- C10: on every in-range acyclic forest, `connectedComponentIdentifier`
returns the root of the queried node (a root both before and after the
call), and the compression writes never change the root any node reaches. -/
theorem C10_compression_preserves_partition (f : List Nat) (i : Nat)
    (hinv : Inv f) (hi : i < f.length) :
    isRoot f (ccIdF f.length f i).1 ∧
    isRoot (ccIdF f.length f i).2 (ccIdF f.length f i).1 ∧
    (ccIdF f.length f i).1 = rootW f i ∧
    (∀ j < f.length, rootW (ccIdF f.length f i).2 j = rootW f j) := by
  obtain ⟨a1, a2, a3, a4, a5, a6⟩ := ccIdF_len_spec hinv hi
  have hroot : isRoot f (ccIdF f.length f i).1 := by
    rw [a1]
    exact hinv.2 i hi
  exact ⟨hroot, a5 _ hroot, a1, a4⟩

theorem C10_witness :
    isRoot [1, 2, 2] (ccIdF (List.length [1, 2, 2]) [1, 2, 2] 0).1 ∧
    isRoot (ccIdF (List.length [1, 2, 2]) [1, 2, 2] 0).2
      (ccIdF (List.length [1, 2, 2]) [1, 2, 2] 0).1 ∧
    (ccIdF (List.length [1, 2, 2]) [1, 2, 2] 0).1 = rootW [1, 2, 2] 0 ∧
    (∀ j < List.length [1, 2, 2],
       rootW (ccIdF (List.length [1, 2, 2]) [1, 2, 2] 0).2 j = rootW [1, 2, 2] j) :=
  C10_compression_preserves_partition [1, 2, 2] 0 (by decide) (by decide)

/-- Transitive connection only depends on the set of unordered, non-degenerate
connections: self-pairs are absorbed by reflexivity. -/
theorem joined_congr {E1 E2 : List (K × K)}
    (hconn : ∀ a b : K, a ≠ b →
      (((a, b) ∈ E1 ∨ (b, a) ∈ E1) ↔ ((a, b) ∈ E2 ∨ (b, a) ∈ E2))) :
    ∀ {x y : K}, Joined E1 x y → Joined E2 x y := by
  intro x y h
  induction h with
  | edge h =>
    rename_i a b
    rcases Decidable.em (a = b) with rfl | hab
    · exact Joined.refl a
    · rcases (hconn a b hab).1 (Or.inl h) with h2 | h2
      · exact Joined.edge h2
      · exact (Joined.edge h2).symm
  | refl a => exact Joined.refl a
  | symm _ ih => exact ih.symm
  | trans _ _ ih1 ih2 => exact ih1.trans ih2

/-- C4: the partition of keys into label classes is invariant under
reordering the edge sequence, duplicating edges, and inserting self-loops on
keys already registered: any two edge lists with the same key set and the
same set of unordered non-degenerate `{key, key}` connections produce the
same key set and the same equal-label relation (only the representative root
value may differ). -/
theorem C4_partition_invariance (cs1 cs2 : ClassState K) (E1 E2 : List (K × K))
    (x y k : K) (lx1 ly1 lx2 ly2 : Nat)
    (hkeys : ∀ a : K, a ∈ hashesOf E1 ↔ a ∈ hashesOf E2)
    (hconn : ∀ a b : K, a ≠ b →
      (((a, b) ∈ E1 ∨ (b, a) ∈ E1) ↔ ((a, b) ∈ E2 ∨ (b, a) ∈ E2)))
    (hx1 : (x, lx1) ∈ (getConnectedCompontents (makeLabeler cs1 E1).1).2)
    (hy1 : (y, ly1) ∈ (getConnectedCompontents (makeLabeler cs1 E1).1).2)
    (hx2 : (x, lx2) ∈ (getConnectedCompontents (makeLabeler cs2 E2).1).2)
    (hy2 : (y, ly2) ∈ (getConnectedCompontents (makeLabeler cs2 E2).1).2) :
    (k ∈ (makeLabeler cs1 E1).1.hashes ↔ k ∈ (makeLabeler cs2 E2).1.hashes) ∧
    (lx1 = ly1 ↔ lx2 = ly2) := by
  obtain ⟨m1, _, _, _, _, _⟩ := makeLabeler_spec cs1 E1
  obtain ⟨n1, _, _, _, _, _⟩ := makeLabeler_spec cs2 E2
  have hjoined : Joined E1 x y ↔ Joined E2 x y := by
    constructor
    · exact joined_congr hconn
    · exact joined_congr (fun a b hab => (hconn a b hab).symm)
  constructor
  · rw [m1, n1]
    exact hkeys k
  · rw [labels_iff_joined cs1 E1 hx1 hy1, labels_iff_joined cs2 E2 hx2 hy2]
    exact hjoined

theorem C4_witness :
    (((1 : Nat) ∈ (makeLabeler (ClassState.fresh Nat) [(1, 2)]).1.hashes ↔
      (1 : Nat) ∈ (makeLabeler (ClassState.fresh Nat) [(2, 1), (1, 1), (1, 2)]).1.hashes) ∧
     ((1 : Nat) = 1 ↔ (0 : Nat) = 0)) :=
  C4_partition_invariance (ClassState.fresh Nat) (ClassState.fresh Nat)
    [(1, 2)] [(2, 1), (1, 1), (1, 2)] 1 2 1 1 1 0 0
    (by
      intro a
      show a ∈ [1, 2] ↔ a ∈ [1, 2]
      exact Iff.rfl)
    (by
      intro a b hab
      simp only [List.mem_cons, List.mem_singleton, List.not_mem_nil, or_false,
        Prod.mk.injEq]
      omega)
    (by decide) (by decide) (by decide) (by decide)

/-- C6: merge monotonicity.  On any ingested labeler state and any two live
indices, one `link` call leaves the number of distinct components unchanged
when the indices are already connected, and decreases it by exactly one when
they are not; it never increases it. -/
theorem C6_merge_monotonicity (cs : ClassState K) (E : List (K × K)) (i j : Nat)
    (hi : i < (makeLabeler cs E).1.forest.length)
    (hj : j < (makeLabeler cs E).1.forest.length) :
    (rootW (makeLabeler cs E).1.forest i = rootW (makeLabeler cs E).1.forest j →
       distinctComponents (link (makeLabeler cs E).1 i j).forest =
         distinctComponents (makeLabeler cs E).1.forest) ∧
    (rootW (makeLabeler cs E).1.forest i ≠ rootW (makeLabeler cs E).1.forest j →
       distinctComponents (link (makeLabeler cs E).1 i j).forest + 1 =
         distinctComponents (makeLabeler cs E).1.forest) := by
  obtain ⟨_, _, _, _, m5, _⟩ := makeLabeler_spec cs E
  have hf : (link (makeLabeler cs E).1 i j).forest =
      linkF (makeLabeler cs E).1.forest i j := by
    rw [link_eq]
  rw [hf]
  exact linkF_count m5 hi hj

theorem C6_witness :
    distinctComponents (link (makeLabeler (ClassState.fresh Nat) [(1, 2)]).1 0 1).forest =
      distinctComponents (makeLabeler (ClassState.fresh Nat) [(1, 2)]).1.forest :=
  (C6_merge_monotonicity (ClassState.fresh Nat) [(1, 2)] 0 1
    (by decide) (by decide)).1 (by decide)

/-- C7 counterexample: ingesting an edge whose first key is null (`None`)
raises nothing and produces a complete labeling that contains the null key —
contradicting the claim that such input aborts with `InvalidEdge` and yields
no output.  `__init__` (src/graph.py lines 22-41) performs no key
validation, and no `InvalidEdge` exception exists anywhere in the
repository. -/
theorem C7_counterexample :
    (getConnectedCompontents (makeLabeler (ClassState.fresh (Option Nat))
       [((none : Option Nat), some 1)]).1).2 = [(none, 1), (some 1, 1)] := by
  decide

/-- C7 (amended): ingestion performs no key validation.  A null key (modelled
as `none` in an optional key domain) is registered and labeled exactly like
any ordinary key: construction always succeeds and every key occurring in
some edge — the null key included — appears with a label in the output. -/
theorem C7_null_keys_labeled {K' : Type} [DecidableEq K']
    (cs : ClassState (Option K')) (E : List (Option K' × Option K'))
    (x : Option K') (hx : x ∈ E.map Prod.fst ∨ x ∈ E.map Prod.snd) :
    ∃ l : Nat, (x, l) ∈ (getConnectedCompontents (makeLabeler cs E).1).2 := by
  have hmem : x ∈ hashesOf E := by
    unfold hashesOf
    rw [List.mem_dedup, List.mem_append]
    exact hx
  exact ⟨_, (out_mem_iff cs E).2 ⟨hmem, rfl⟩⟩

theorem C7_witness :
    ∃ l : Nat, ((none : Option Nat), l) ∈
      (getConnectedCompontents (makeLabeler (ClassState.fresh (Option Nat))
        [((none : Option Nat), some 1)]).1).2 :=
  C7_null_keys_labeled (ClassState.fresh (Option Nat))
    [((none : Option Nat), some 1)] none (by decide)

/-- C3: the chain `(1,2), (2,3), ..., (999,1000)` resolves to exactly one
component of size 1000 (every one of the 1000 output rows carries the same
label), but the root lookup is *not* an iterative loop with bounded,
length-independent recursion: `connectedComponentIdentifier` is recursive
(src/graph.py lines 50-53) and on this input the call on node 0 — the first
call `simplifyForest` makes — needs exactly 1000 nested invocations, one per
node on the chain. -/
theorem C3_chain_resolution :
    ((getConnectedCompontents (makeLabeler (ClassState.fresh Nat)
        (chainEdges 999)).1).2.length = 1000) ∧
    (∀ p ∈ (getConnectedCompontents (makeLabeler (ClassState.fresh Nat)
        (chainEdges 999)).1).2, p.2 = 999) ∧
    distinctComponents (makeLabeler (ClassState.fresh Nat) (chainEdges 999)).1.forest
      = 1 ∧
    ccDepth 1000 (makeLabeler (ClassState.fresh Nat) (chainEdges 999)).1.forest 0
      = 1000 := by
  have h999 : (999 : Nat) = 998 + 1 := rfl
  obtain ⟨f1, f2⟩ := chain_labeler_forest 998 (ClassState.fresh Nat)
  rw [h999]
  obtain ⟨hinv, hroots, hdepth⟩ :=
    chainF_props 998 (makeLabeler (ClassState.fresh Nat) (chainEdges (998 + 1))).1.forest
      f1 f2
  have hh : hashesOf (chainEdges (998 + 1)) = List.range' 1 1000 := chain_hashes 998
  refine ⟨?_, ?_, ?_, ?_⟩
  · rw [out_eq, List.length_zip, hh, List.length_range']
    obtain ⟨s1, _, _, _⟩ := simplifyF_spec hinv
    rw [s1, f1]
    omega
  · intro p hp
    obtain ⟨x, v⟩ := p
    obtain ⟨hx, hv⟩ :=
      (out_mem_iff (ClassState.fresh Nat) (chainEdges (998 + 1))).1 hp
    have hlen1000 : (hashesOf (chainEdges (998 + 1))).length = 998 + 2 := by
      rw [hh, List.length_range']
    have hidx : (hashesOf (chainEdges (998 + 1))).indexOf x < 998 + 2 := by
      have h2 := List.indexOf_lt_length.2 hx
      rwa [hlen1000] at h2
    show v = 999
    rw [hv, hroots _ hidx]
  · unfold distinctComponents
    rw [f1]
    have himg : (Finset.range 1000).image
        (rootW (makeLabeler (ClassState.fresh Nat) (chainEdges (998 + 1))).1.forest) =
        {999} := by
      rw [Finset.eq_singleton_iff_unique_mem]
      constructor
      · exact Finset.mem_image.2 ⟨0, Finset.mem_range.2 (by omega),
          hroots 0 (by omega)⟩
      · intro b hb
        obtain ⟨i, hi, rfl⟩ := Finset.mem_image.1 hb
        exact hroots i (Finset.mem_range.1 hi)
    rw [himg, Finset.card_singleton]
  · exact hdepth 999 0 1000 rfl (by omega)

end MyGeoDb
